import Mathlib

/-!
Verification of the constellation-graph generator
(`src/rust/src/gd/graph/graph_generate.rs`, `ConstellationGraph` and its
helper functions) against its natural-language specification.

Modelling conventions, used throughout:

* All `f32`/`f64` values are modelled by `Q`, an exact fraction type
  (numerator/denominator, denominator positive by construction, no
  normalisation).  Floating-point rounding is not modelled; the spec's
  properties are about the exact algorithm.
* Transcendental float math (`sin`, quaternion rotation by an axis/angle,
  the constant `TAU`) is abstracted into a `Trig` parameter structure; every
  theorem is proved for all instantiations.
* The seeded random generator (`Xoshiro256Plus` and its forks) is modelled
  as a `GenStream`: a record of deterministic draw streams, one per draw
  site, indexed by the loop counters that determine the draw position.
  Any concrete rng run corresponds to one such stream.
* The `kiddo` kd-tree is modelled by exact linear scans over the stored
  points ("Queries must be exact", spec 4.1).
* A `petgraph::Graph` is modelled as its raw node list and raw edge list in
  insertion order (`UGraph`); `add_node`/`add_edge` append, node indices are
  positions.
* `petgraph::algo::tarjan_scc` on an undirected graph computes its connected
  components in a deterministic, input-structure-only order; it is modelled
  by `sccList` (deterministic connected components, islands ordered by
  their smallest-representative first occurrence).
-/

/-- Exact fraction: `num / (dpred + 1)`.  Stands in for the `f32`/`f64`
values of the source; the denominator `dpred + 1` is positive by
construction and no normalisation is performed (all operations are
kernel-computable). -/
structure Q where
  num : Int
  dpred : Nat
deriving DecidableEq

/-- The (always positive) denominator of a `Q`. -/
def Q.den (x : Q) : Int := (x.dpred : Int) + 1

/-- The fraction `n / d` (for `d ≥ 1`), written `qdiv n d`. -/
def qdiv (n : Int) (d : Nat) : Q := ⟨n, d - 1⟩

instance : OfNat Q n := ⟨⟨(n : Int), 0⟩⟩

instance : Add Q :=
  ⟨fun x y => ⟨x.num * y.den + y.num * x.den, x.dpred * y.dpred + x.dpred + y.dpred⟩⟩

instance : Mul Q :=
  ⟨fun x y => ⟨x.num * y.num, x.dpred * y.dpred + x.dpred + y.dpred⟩⟩

instance : Neg Q := ⟨fun x => ⟨-x.num, x.dpred⟩⟩

instance : Sub Q := ⟨fun x y => x + -y⟩

/-- Semantic order on fractions (cross-multiplication; denominators are
positive, so this is the numeric order). -/
instance : LE Q := ⟨fun x y => x.num * y.den ≤ y.num * x.den⟩

instance : LT Q := ⟨fun x y => x.num * y.den < y.num * x.den⟩

instance (x y : Q) : Decidable (x ≤ y) := Int.decLe _ _

instance (x y : Q) : Decidable (x < y) := Int.decLt _ _

/-- A 3D vector over exact fractions.  Models the source's `Vector3` (f32) and
`nalgebra::Point3<f64>`; the f64→f32 cast in `generate_points` is the
identity here (float rounding is not modelled). -/
structure V3 where
  x : Q
  y : Q
  z : Q
deriving DecidableEq

/-- Squared Euclidean distance, as used by every `SquaredEuclidean` kd-tree
query in `graph_generate.rs`. -/
def dist2 (a b : V3) : Q :=
  (a.x - b.x) * (a.x - b.x) + (a.y - b.y) * (a.y - b.y) + (a.z - b.z) * (a.z - b.z)

/-- The transcendental float math of the source, kept abstract: `sinq`
stands for `f64::sin`, `rotate axis angle p` for
`UnitQuaternion::from_axis_angle(axis, angle) * p`, and `tau` for the
constant `TAU`.  Every theorem holds for all instantiations. -/
structure Trig where
  sinq : Q → Q
  rotate : V3 → Q → V3 → V3
  tau : Q

/-- The seeded rng (`Xoshiro256Plus`) and its forked sub-generators,
modelled as deterministic draw streams, one field per draw site of
`ConstellationGraph::new`, indexed by the loop counters that determine the
draw position:
* `chordPick`: the fork used by `chords.choose`;
* `semitonePick`: `rng.random_range(-11..12)` (raw draw, taken mod 23);
* `angleMult i`: the `rng.random_range(0.5..=1.5)` draw for point `i`;
* `parentPick i t`: the `rng.random_range(0..points.len())` draw at
  attempt `t` of point `i` (raw draw, taken mod the current length);
* `axisPick i t`: the `random_unit_axis(rng)` result at attempt `t` of
  point `i`;
* `centroidPick j`: the `choose_multiple` fork's `j`-th index draw;
* `nbrPick c i`: the `choose_weighted` draw for point `i` of cluster `c`
  (raw draw, mapped into `1..=max_neighbor_count`). -/
structure GenStream where
  chordPick : Nat
  semitonePick : Nat
  angleMult : Nat → Q
  parentPick : Nat → Nat → Nat
  axisPick : Nat → Nat → V3
  centroidPick : Nat → Nat
  nbrPick : Nat → Nat → Nat

/-- The closed set of musical chord qualities (`src/rust/src/chords.rs`). -/
inductive Chord where
  | Cmaj | Cmin | Caug | C7 | Cmaj7 | Cmin7 | Chalfdim7
  | CminMaj7 | C9 | Cmaj9 | Cmin9 | C11 | C13
deriving DecidableEq

/-- Source `Chord::iter().collect::<Vec<_>>()` (strum `EnumIter` order). -/
def chordList : List Chord :=
  [.Cmaj, .Cmin, .Caug, .C7, .Cmaj7, .Cmin7, .Chalfdim7,
   .CminMaj7, .C9, .Cmaj9, .Cmin9, .C11, .C13]

/-- State of the inner candidate-search loop of `generate_points_poisson`:
the per-point iteration counter, the working minimum distance, the current
`max_angle` and (bookkeeping for the theorems) the number of leniency
relaxations performed so far in the whole run. -/
structure LoopState where
  it : Nat
  md : Q
  ma : Q
  relax : Nat
deriving DecidableEq

/-- The leniency check at the top of the inner loop: if the iteration
counter has reached 1000, reset it and multiply both the working minimum
distance and `max_angle` by the decay factor 0.9. -/
def relaxStep (st : LoopState) : LoopState :=
  if 1000 ≤ st.it then ⟨0, st.md * qdiv 9 10, st.ma * qdiv 9 10, st.relax + 1⟩
  else st

/-- The candidate proposed at attempt `t` while searching for point `i`:
a previously accepted point is selected as parent and rotated by `angle`
around a random axis (`graph_generate.rs` lines 109-130). -/
def candidateAt (S : GenStream) (T : Trig) (i : Nat) (pts : List V3) (angle : Q)
    (t : Nat) : V3 :=
  T.rotate (S.axisPick i t) angle (pts.getD (S.parentPick i t % pts.length) ⟨0, 0, 0⟩)

/-- The acceptance test: `tree.nearest_n_within(candidate, md²)` returns no
neighbour, i.e. no already accepted point lies within distance `md` of the
candidate (the kd-tree holds exactly the accepted points, and its queries
are exact). -/
def accepts (pts : List V3) (md : Q) (cand : V3) : Bool :=
  pts.all fun q => decide (md * md < dist2 q cand)

/-- Result of a successful candidate search: the accepted point, the
minimum distance it was checked against, and the `max_angle`/relaxation
count after the search. -/
structure SearchRes where
  pt : V3
  md : Q
  ma : Q
  relax : Nat
deriving DecidableEq

/-- The inner `loop` of `generate_points_poisson`, searching for one
acceptable candidate.  `t` is the attempt counter (it indexes the rng
stream and never resets; the `it` field of the state is the source's
`iteration` variable, which does reset).  The source loops without bound;
here `fuel` bounds the number of attempts and `none` means the search did
not accept a candidate within `fuel` attempts. -/
def search (S : GenStream) (T : Trig) (i : Nat) (pts : List V3) (angle : Q) :
    LoopState → Nat → Nat → Option SearchRes
  | _, _, 0 => none
  | st, t, fuel+1 =>
    let st' := relaxStep st
    let cand := candidateAt S T i pts angle t
    if accepts pts st'.md cand then some ⟨cand, st'.md, st'.ma, st'.relax⟩
    else search S T i pts angle ⟨st'.it + 1, st'.md, st'.ma, st'.relax⟩ (t+1) fuel

/-- State evolution of the inner loop under rejection (specification
function for the termination analysis): the state at the start of attempt
`s`, assuming attempts `0..s` were all rejected. -/
def rejectedNext (st : LoopState) : LoopState :=
  ⟨(relaxStep st).it + 1, (relaxStep st).md, (relaxStep st).ma, (relaxStep st).relax⟩

/-- Iterate `rejectedNext` `s` times. -/
def stateAt (st : LoopState) : Nat → LoopState
  | 0 => st
  | s+1 => rejectedNext (stateAt st s)

/-- Acceptance record for one point of the Poisson sampler, kept for the
separation/monotonicity theorems: the accepted point, the minimum distance
it was actually checked against, the angle drawn for it, the `max_angle`
in force when that angle was drawn, and the total relaxation count at
acceptance. -/
structure TraceEntry where
  pt : V3
  md : Q
  angle : Q
  maStart : Q
  relax : Nat
deriving DecidableEq

/-- The initial target minimum distance for point `i` when the current
`max_angle` is `ma`: the chord-length formula `2·radius·sin(angle/2)`
scaled by the leniency multiplier `epsilon_mult = 0.9`, where `angle` is
the point's random draw in `[0.5, 1.5] × max_angle`. -/
def mdInit (S : GenStream) (T : Trig) (radius : Q) (i : Nat) (ma : Q) : Q :=
  2 * radius * T.sinq ((S.angleMult i * ma) * qdiv 1 2) * qdiv 9 10

/-- The outer `while points.len() < n` loop of `generate_points_poisson`:
draw a random angle in `[0.5, 1.5] × max_angle`, convert it to a minimum
chord distance `2·radius·sin(angle/2)·0.9` (`mdInit`), and search for an
acceptable candidate.  `need` is the number of points still to accept, `i`
the index of the next point (the start point is point 0). -/
def poissonGo (S : GenStream) (T : Trig) (radius : Q) :
    Nat → Nat → List V3 → Q → Nat → Nat → Option (List TraceEntry)
  | 0, _, _, _, _, _ => some []
  | need+1, i, pts, ma, relax, fuel =>
    let angle := S.angleMult i * ma
    let md0 := mdInit S T radius i ma
    match search S T i pts angle ⟨0, md0, ma, relax⟩ 0 fuel with
    | none => none
    | some r =>
      match poissonGo S T radius need (i+1) (pts ++ [r.pt]) r.ma r.relax fuel with
      | none => none
      | some tr => some (⟨r.pt, r.md, angle, ma, r.relax⟩ :: tr)

/-- The fixed starting point `(0, radius, 0)` at a pole of the sphere. -/
def startPoint (radius : Q) : V3 := ⟨0, radius, 0⟩

/-- Source `ConstellationGraph::generate_points_poisson`: the start point is
pushed unconditionally, then points are accepted until `n` are present.
Note that for `n = 0` the loop guard `points.len() < n` is already false
after the unconditional push, so one point is still returned. -/
def generate_points_poisson (S : GenStream) (T : Trig) (n : Nat)
    (radius maxAngle : Q) (fuel : Nat) : Option (List V3) :=
  (poissonGo S T radius (n - 1) 1 [startPoint radius] maxAngle 0 fuel).map
    fun tr => startPoint radius :: tr.map (·.pt)

/-- Source `ConstellationGraph::generate_points`: fixes `max_angle = TAU * 0.02`
and converts the f64 points to f32 (the conversion is the identity here). -/
def generate_points (S : GenStream) (T : Trig) (n : Nat) (radius : Q)
    (fuel : Nat) : Option (List V3) :=
  generate_points_poisson S T n radius (T.tau * qdiv 2 100) fuel

/-- First index of the centroid nearest to `p`, scanning from index `cur`
with current best index `best` at squared distance `bestD` (strict
improvement, so the first index attaining the minimum wins). -/
def nearestIdxAux (p : V3) : List V3 → Nat → Nat → Q → Nat
  | [], _, best, _ => best
  | c :: rest, cur, best, bestD =>
    if dist2 c p < bestD then nearestIdxAux p rest (cur+1) cur (dist2 c p)
    else nearestIdxAux p rest (cur+1) best bestD

/-- Models `kdtree.nearest_one::<SquaredEuclidean>` over the centroid
kd-tree: the index of the nearest stored centroid (queries are exact; on
ties the model takes the first index attaining the minimum).  `none` iff no
centroid is stored. -/
def nearestIdx (cs : List V3) (p : V3) : Option Nat :=
  match cs with
  | [] => none
  | c :: rest => some (nearestIdxAux p rest 1 0 (dist2 c p))

/-- Source `points.choose_multiple(rng, k)`: sample without replacement, modelled
by repeatedly removing the element at a stream-chosen index; like the
source it returns `min k pool.length` elements. -/
def chooseMultiple (pick : Nat → Nat) : Nat → Nat → List V3 → List V3
  | _, 0, _ => []
  | j, k+1, pool =>
    if pool.length = 0 then []
    else
      let idx := pick j % pool.length
      pool.getD idx ⟨0, 0, 0⟩ :: chooseMultiple pick (j+1) k (pool.eraseIdx idx)

/-- Apply `f` to the element at position `i` (used for
`clusters[closest_centroid].0.push(p)`). -/
def modifyAt (f : α → α) : List α → Nat → List α
  | [], _ => []
  | a :: l, 0 => f a :: l
  | a :: l, i+1 => a :: modifyAt f l i

/-- The assignment loop of `cluster_voronoi`: push every point onto the
cluster of its nearest centroid.  `none` models the source panic when a
point must be assigned but no centroid exists (`k = 0` with points
present: the `nearest_one` query has no stored item and
`clusters[closest]` indexes an empty vector). -/
def assignPoints (centroids : List V3) :
    List V3 → List (List V3 × V3) → Option (List (List V3 × V3))
  | [], acc => some acc
  | p :: rest, acc =>
    match nearestIdx centroids p with
    | none => none
    | some idx => assignPoints centroids rest (modifyAt (fun cl => (cl.1 ++ [p], cl.2)) acc idx)

/-- Stable insertion (the element being inserted goes after every kept
element `b` with `le b a`). -/
def insertLe (le : α → α → Bool) (a : α) : List α → List α
  | [] => [a]
  | b :: l => if le b a then b :: insertLe le a l else a :: b :: l

/-- Stable insertion sort; stands in for Rust's stable `sort_by_key` /
sorted kd-tree query results. -/
def insertionSort (le : α → α → Bool) (l : List α) : List α :=
  l.foldl (fun acc a => insertLe le a acc) []

/-- Source `clusters.sort_by_key(|cluster| OrderedFloat(-cluster.1.y))`: stable
sort by ascending `-y`, i.e. descending centroid height. -/
def sortClustersByY (cs : List (List V3 × V3)) : List (List V3 × V3) :=
  insertionSort (fun u v => decide (v.2.y ≤ u.2.y)) cs

/-- Source `ConstellationGraph::cluster_voronoi`: pick `k` random centroids among
the points, assign every point to its nearest centroid, and stable-sort the
clusters by descending centroid height. -/
def cluster_voronoi (S : GenStream) (points : List V3) (k : Nat) :
    Option (List (List V3 × V3)) :=
  let centroids := chooseMultiple S.centroidPick 0 k points
  (assignPoints centroids points (centroids.map fun c => ([], c))).map sortClustersByY

/-- A `petgraph::Graph<Vector3, (), Undirected>` (`GraphTypedef`) as its
raw storage: the node weight list and the edge list in insertion order;
`add_node`/`add_edge` append and a node's identity is its position. -/
structure UGraph where
  nodes : List V3
  edges : List (Nat × Nat)
deriving DecidableEq

def UGraph.empty : UGraph := ⟨[], []⟩

/-- Do two stored edges join the same unordered node pair? -/
def eqUnordered (e f : Nat × Nat) : Bool :=
  (decide (e.1 = f.1) && decide (e.2 = f.2)) || (decide (e.1 = f.2) && decide (e.2 = f.1))

/-- Source `graph.contains_edge(a, b)` on an undirected petgraph graph: some
stored edge joins `a` and `b` (either orientation). -/
def containsEdge (g : UGraph) (a b : Nat) : Bool :=
  g.edges.any fun e => eqUnordered e (a, b)

/-- Source `graph.add_edge(a, b, ())`. -/
def addEdge (g : UGraph) (a b : Nat) : UGraph := ⟨g.nodes, g.edges ++ [(a, b)]⟩

/-- Source `kdtree.nearest_n::<SquaredEuclidean>(query, m)` over a cluster's
points: the `m` stored ids nearest to the query, by increasing squared
distance (queries are exact; ties resolved deterministically by id). -/
def nearestN (pts : List V3) (q : V3) (m : Nat) : List Nat :=
  (insertionSort
    (fun i j => decide (dist2 (pts.getD i ⟨0,0,0⟩) q ≤ dist2 (pts.getD j ⟨0,0,0⟩) q))
    (List.range pts.length)).take m

/-- One iteration of the per-cluster edge loop of
`connect_clusters_internally`: connect point `i` to each of its
`neighborCount` nearest neighbours (the `+1` in the query accounts for the
point matching itself), skipping `i` itself and already present edges. -/
def addEdgesFor (cluster : List V3) (g : UGraph) (i : Nat) (neighborCount : Nat) : UGraph :=
  (nearestN cluster (cluster.getD i ⟨0,0,0⟩) (neighborCount + 1)).foldl
    (fun g2 j =>
      if i = j then g2
      else if containsEdge g2 i j then g2
      else addEdge g2 i j)
    g

/-- The per-cluster graph of `connect_clusters_internally`: one node per
cluster point (local indices `0..cluster_size`), and for each point a
stream-chosen neighbour count in `1..=max_neighbor_count`
(`choose_weighted`; the weights only shape the distribution, not the
range).  `none` models the `choose_weighted(..).unwrap()` panic when
`max_neighbor_count = 0` (empty candidate range) and the cluster has a
point. -/
def buildClusterGraph (S : GenStream) (maxNC : Nat) (c : Nat) (cluster : List V3) :
    Option UGraph :=
  if maxNC = 0 ∧ cluster.length ≠ 0 then none
  else some ((List.range cluster.length).foldl
    (fun g i => addEdgesFor cluster g i (1 + S.nbrPick c i % maxNC))
    ⟨cluster, []⟩)

/-- All per-cluster graphs, in cluster order (`c` is the cluster index,
used only to index the draw stream). -/
def clusterGraphs (S : GenStream) (maxNC : Nat) :
    Nat → List (List V3 × V3) → Option (List UGraph)
  | _, [] => some []
  | c, cl :: rest =>
    match buildClusterGraph S maxNC c cl.1 with
    | none => none
    | some g => (clusterGraphs S maxNC (c+1) rest).map (g :: ·)

/-- Source `ConstellationGraph::merge_undirected_graphs`: for each graph in order,
append its nodes to the base (the `BTreeMap` node map built by sequential
`add_node` calls sends local index `i` to `base.nodes.length + i`) and
re-add its edges translated through that map. -/
def merge_undirected_graphs (base : UGraph) (others : List UGraph) : UGraph :=
  others.foldl
    (fun b g =>
      ⟨b.nodes ++ g.nodes,
       b.edges ++ g.edges.map fun e => (e.1 + b.nodes.length, e.2 + b.nodes.length)⟩)
    base

/-- Source `ConstellationGraph::connect_clusters_internally`: build the
per-cluster graphs and merge them into one supergraph. -/
def connect_clusters_internally (S : GenStream) (clusters : List (List V3 × V3))
    (maxNC : Nat) : Option UGraph :=
  (clusterGraphs S maxNC 0 clusters).map (merge_undirected_graphs UGraph.empty)

/-- Neighbours of node `i` along the stored edges (either orientation). -/
def nbrs (g : UGraph) (i : Nat) : List Nat :=
  g.edges.foldr
    (fun e acc => if e.1 = i then e.2 :: acc else if e.2 = i then e.1 :: acc else acc)
    []

/-- One expansion step of reachability: a node set together with all its
neighbours, deduplicated. -/
def reachExpand (g : UGraph) (s : List Nat) : List Nat :=
  (s ++ s.flatMap (nbrs g)).dedup

/-- Nodes reachable from `i` (expanding `nodes.length` times reaches the
whole connected component). -/
def reachSet (g : UGraph) (i : Nat) : List Nat :=
  (reachExpand g)^[g.nodes.length] [i]

/-- Canonical representative of `i`'s connected component: the least
reachable node. -/
def rep (g : UGraph) (i : Nat) : Nat :=
  (reachSet g i).foldl min i

/-- Models `petgraph::algo::tarjan_scc` on the (undirected) supergraph: the
strongly connected components of an undirected graph are exactly its
connected components, and the output order is a pure function of the input
structure.  Components are listed by first occurrence of their canonical
representative, each listing its nodes in index order. -/
def sccList (g : UGraph) : List (List Nat) :=
  (((List.range g.nodes.length).map (rep g)).dedup).map
    fun r => (List.range g.nodes.length).filter fun i => decide (rep g i = r)

/-- The aggregate root (`ConstellationGraph`): chord, semitone offset,
graph and island partition. -/
structure ConstellationGraph where
  chord : Chord
  semitone_offset : Int
  graph : UGraph
  islands : List (List Nat)
deriving DecidableEq

/-- Source `ConstellationGraph::new`: choose the chord (from a fresh fork) and the
semitone offset first, generate the points, cluster them into
`k = ceil(n / 15)` clusters, connect clusters internally, and compute the
islands.  `none` models a source panic (`n = 0`, `max_neighbor_count = 0`)
or a candidate search that did not finish within `fuel` attempts. -/
def ConstellationGraph.new (S : GenStream) (T : Trig) (n : Nat) (radius : Q)
    (maxNC : Nat) (fuel : Nat) : Option ConstellationGraph :=
  let chord := chordList.getD (S.chordPick % chordList.length) .Cmaj
  let offset : Int := (S.semitonePick % 23 : Int) - 11
  match generate_points S T n radius fuel with
  | none => none
  | some points =>
    match cluster_voronoi S points ((n + 14) / 15) with
    | none => none
    | some clusters =>
      match connect_clusters_internally S clusters maxNC with
      | none => none
      | some g => some ⟨chord, offset, g, sccList g⟩

/-- Source `graph_eq`: "Checks if internal node/edges have the exact same order"
— equality of the raw node and edge storage. -/
def graph_eq (a b : UGraph) : Bool :=
  decide (a.nodes = b.nodes) && decide (a.edges = b.edges)

/-- Source `impl PartialEq for ConstellationGraph`: compares only the graph and
the islands. -/
def constellationEq (a b : ConstellationGraph) : Bool :=
  graph_eq a.graph b.graph && decide (a.islands = b.islands)

/-- Spec-side description of the merged edge list (refinement target for
the merge claim): the union of the input edge lists, each translated by
the total node count of the graphs before it. -/
def mergeEdgesSpec : List UGraph → Nat → List (Nat × Nat)
  | [], _ => []
  | g :: rest, off =>
    g.edges.map (fun e => (e.1 + off, e.2 + off)) ++ mergeEdgesSpec rest (off + g.nodes.length)

/-- Total node count of the first `c` graphs: the index offset of graph
`c`'s nodes after merging. -/
def offsetBefore (gs : List UGraph) (c : Nat) : Nat :=
  ((gs.take c).map (·.nodes.length)).sum

/-- Simplicity: no self-loop, and no two stored edges join the same
unordered node pair. -/
def Simple (g : UGraph) : Prop :=
  (∀ e ∈ g.edges, e.1 ≠ e.2) ∧
    List.Pairwise (fun e f => eqUnordered e f = false) g.edges

/-- Degree of node `v`: the number of stored edges incident to it (the
graphs built here have no self-loops, so this is the neighbour count). -/
def degree (g : UGraph) (v : Nat) : Nat :=
  (g.edges.filter fun e => decide (e.1 = v) || decide (e.2 = v)).length

/-- All edge endpoints lie below `n`. -/
def EdgesBelow (g : UGraph) (n : Nat) : Prop :=
  ∀ e ∈ g.edges, e.1 < n ∧ e.2 < n

/-- Integer-coordinate vector (concrete inputs for witnesses). -/
def v3 (a b c : Int) : V3 := ⟨⟨a, 0⟩, ⟨b, 0⟩, ⟨c, 0⟩⟩

/-- Concrete trig instantiation for witness runs: the stream's axis draw is
used directly as the candidate point, and `sin` is the identity. -/
def trigW : Trig := { sinq := fun x => x, rotate := fun axis _ _ => axis, tau := 1 }

/-- Concrete trig instantiation with a nonnegative `sin` (for witnesses of
theorems assuming `0 ≤ sinq x`). -/
def trigPos : Trig := { sinq := fun _ => qdiv 1 2, rotate := fun axis _ _ => axis, tau := 1 }

/-- Degenerate trig: rotation fixes the parent (a rotation whose axis is
parallel to the parent's position, which `random_unit_axis` can produce,
behaves exactly like this). -/
def trigId : Trig := { sinq := fun x => x, rotate := fun _ _ p => p, tau := 1 }

/-- Concrete draw stream for witness runs: every candidate axis is a far
away integer point, distinct per point index. -/
def streamW : GenStream := {
  chordPick := 0, semitonePick := 0,
  angleMult := fun _ => 1,
  parentPick := fun _ _ => 0,
  axisPick := fun i _ => v3 (100 * (i : Int)) 0 0,
  centroidPick := fun _ => 0,
  nbrPick := fun _ _ => 0 }

/-- All-zero draw stream (used with `trigId`: every candidate coincides
with the start point). -/
def streamZero : GenStream := {
  chordPick := 0, semitonePick := 0,
  angleMult := fun _ => 1,
  parentPick := fun _ _ => 0,
  axisPick := fun _ _ => v3 0 0 0,
  centroidPick := fun _ => 0,
  nbrPick := fun _ _ => 0 }

/-- Draw stream whose angle draw is at the low end (0.5×) for point 1 and
at the high end (1.5×) for point 2. -/
def streamC8 : GenStream := {
  chordPick := 0, semitonePick := 0,
  angleMult := fun i => if i = 1 then qdiv 1 2 else qdiv 3 2,
  parentPick := fun _ _ => 0,
  axisPick := fun i _ => v3 (100 * (i : Int)) 0 0,
  centroidPick := fun _ => 0,
  nbrPick := fun _ _ => 0 }

/-- Dummy trace entry (default for `List.getD`). -/
def trDummy : TraceEntry := ⟨v3 0 0 0, 0, 0, 0, 0⟩

/-- The `ConstellationGraph` produced by the witness run with `n = 1`. -/
def cgW1 : ConstellationGraph :=
  ⟨.Cmaj, -11, ⟨[v3 0 1 0], []⟩, [[0]]⟩

/-- Value `cgW1` with a different chord and semitone offset (same graph and
islands). -/
def cgW1' : ConstellationGraph :=
  ⟨.Cmin, 5, ⟨[v3 0 1 0], []⟩, [[0]]⟩

/-- The `ConstellationGraph` produced by the witness run with `n = 3`. -/
def cgW3 : ConstellationGraph :=
  ⟨.Cmaj, -11,
   ⟨[v3 0 1 0, v3 100 0 0, v3 200 0 0], [(0, 1), (1, 2)]⟩,
   [[0, 1, 2]]⟩

/-- A concrete three-point cluster in which the middle point is the nearest
neighbour of both others. -/
def clusterC5 : List V3 := [v3 0 0 0, v3 10 0 0, v3 (-10) 0 0]

/-- Total number of points over a cluster list. -/
def clusterSizes (cs : List (List V3 × V3)) : Nat :=
  (cs.map (·.1.length)).sum

/-- The per-cluster graph built from `clusterC5` with
`max_neighbor_count = 1`: the middle point (node 0) receives edges from
both of its neighbours. -/
def gC5 : UGraph := ⟨clusterC5, [(0, 1), (2, 0)]⟩

/-- The acceptance trace of the witness run (two points after the start
point, no relaxation). -/
def trW : List TraceEntry :=
  [⟨v3 100 0 0, ⟨18, 19⟩, ⟨1, 0⟩, ⟨1, 0⟩, 0⟩,
   ⟨v3 200 0 0, ⟨18, 19⟩, ⟨1, 0⟩, ⟨1, 0⟩, 0⟩]

/-! ### Arithmetic lemmas for the fraction type -/

theorem Q.den_pos (x : Q) : 0 < x.den := by
  simp only [Q.den]
  exact Int.lt_add_one_of_le (Int.ofNat_nonneg x.dpred)

theorem Q.add_den (x y : Q) : (x + y).den = x.den * y.den := by
  show ((x.dpred * y.dpred + x.dpred + y.dpred : Nat) : Int) + 1
      = ((x.dpred : Int) + 1) * ((y.dpred : Int) + 1)
  push_cast
  ring

theorem Q.mul_den (x y : Q) : (x * y).den = x.den * y.den := by
  show ((x.dpred * y.dpred + x.dpred + y.dpred : Nat) : Int) + 1
      = ((x.dpred : Int) + 1) * ((y.dpred : Int) + 1)
  push_cast
  ring

theorem Q.add_num (x y : Q) : (x + y).num = x.num * y.den + y.num * x.den := rfl

theorem Q.mul_num (x y : Q) : (x * y).num = x.num * y.num := rfl

theorem Q.le_def (x y : Q) : x ≤ y ↔ x.num * y.den ≤ y.num * x.den := Iff.rfl

theorem Q.lt_def (x y : Q) : x < y ↔ x.num * y.den < y.num * x.den := Iff.rfl

theorem Q.le_refl (x : Q) : x ≤ x := Int.le_refl _

theorem Q.le_trans {x y z : Q} (h1 : x ≤ y) (h2 : y ≤ z) : x ≤ z := by
  rw [Q.le_def] at h1 h2 ⊢
  have hy := y.den_pos
  have h1' := mul_le_mul_of_nonneg_right h1 (le_of_lt z.den_pos)
  have h2' := mul_le_mul_of_nonneg_right h2 (le_of_lt x.den_pos)
  have : x.num * z.den * y.den ≤ z.num * x.den * y.den := by nlinarith
  exact le_of_mul_le_mul_right this hy

theorem Q.lt_of_lt_of_le {x y z : Q} (h1 : x < y) (h2 : y ≤ z) : x < z := by
  rw [Q.lt_def] at h1 ⊢
  rw [Q.le_def] at h2
  have hy := y.den_pos
  have h1' := mul_lt_mul_of_pos_right h1 z.den_pos
  have h2' := mul_le_mul_of_nonneg_right h2 (le_of_lt x.den_pos)
  have : x.num * z.den * y.den < z.num * x.den * y.den := by nlinarith
  exact lt_of_mul_lt_mul_right this (le_of_lt hy)

theorem Q.le_of_lt {x y : Q} (h : x < y) : x ≤ y := Int.le_of_lt h

/-- Nonnegativity `0 ≤ x` unfolds to `0 ≤ x.num`. -/
theorem Q.nonneg_iff (x : Q) : 0 ≤ x ↔ 0 ≤ x.num := by
  rw [Q.le_def]
  show (0 : Int) * x.den ≤ x.num * ((0:Nat) + 1 : Int) ↔ _
  simp

theorem Q.mul_nonneg {x y : Q} (hx : 0 ≤ x) (hy : 0 ≤ y) : 0 ≤ x * y := by
  rw [Q.nonneg_iff] at hx hy ⊢
  exact Int.mul_nonneg hx hy

theorem Q.add_nonneg {x y : Q} (hx : 0 ≤ x) (hy : 0 ≤ y) : 0 ≤ x + y := by
  rw [Q.nonneg_iff] at hx hy ⊢
  rw [Q.add_num]
  have := x.den_pos
  have := y.den_pos
  nlinarith

/-- Squares are nonnegative. -/
theorem Q.sq_nonneg (x : Q) : 0 ≤ x * x := by
  rw [Q.nonneg_iff, Q.mul_num]
  exact mul_self_nonneg _

/-- Multiplying a nonnegative fraction by `9/10` does not increase it. -/
theorem Q.mul_nine_tenths_le {x : Q} (hx : 0 ≤ x) : x * qdiv 9 10 ≤ x := by
  rw [Q.nonneg_iff] at hx
  rw [Q.le_def, Q.mul_num, Q.mul_den]
  have hd := x.den_pos
  show x.num * 9 * x.den ≤ x.num * (x.den * ((10:Nat) - 1 + 1 : Int))
  push_cast
  nlinarith

theorem Q.mul_nine_tenths_nonneg {x : Q} (hx : 0 ≤ x) : 0 ≤ x * qdiv 9 10 := by
  rw [Q.nonneg_iff] at hx ⊢
  rw [Q.mul_num]
  show 0 ≤ x.num * 9
  nlinarith

theorem Q.not_lt {x y : Q} (h : y ≤ x) : ¬ x < y := by
  rw [Q.le_def] at h
  rw [Q.lt_def]
  exact Int.not_lt.mpr h

/-! ### Generic list facts -/

theorem foldlRec {α β : Type} {P : β → Prop} (f : β → α → β) :
    ∀ (l : List α) (b : β), P b → (∀ b' a, a ∈ l → P b' → P (f b' a)) → P (l.foldl f b)
  | [], b, hb, _ => hb
  | a :: l, b, hb, hstep =>
    foldlRec f l (f b a) (hstep b a (.head l) hb)
      (fun b' a' ha' => hstep b' a' (.tail _ ha'))

theorem insertLe_perm (le : α → α → Bool) (a : α) :
    ∀ l : List α, (insertLe le a l).Perm (a :: l)
  | [] => .refl _
  | b :: l => by
    unfold insertLe
    by_cases h : le b a
    · rw [if_pos h]
      exact ((insertLe_perm le a l).cons b).trans (List.Perm.swap a b l)
    · rw [if_neg h]

theorem insertionSort_foldl_perm (le : α → α → Bool) :
    ∀ (l acc : List α), (l.foldl (fun acc a => insertLe le a acc) acc).Perm (acc ++ l)
  | [], acc => by simp
  | a :: l, acc => by
    have h1 := insertionSort_foldl_perm le l (insertLe le a acc)
    have h2 : (insertLe le a acc ++ l).Perm (acc ++ a :: l) :=
      ((insertLe_perm le a acc).append_right l).trans List.perm_middle.symm
    exact h1.trans h2

theorem insertionSort_perm (le : α → α → Bool) (l : List α) :
    (insertionSort le l).Perm l := by
  simpa [insertionSort] using insertionSort_foldl_perm le l []

/-! ### Lemmas about the inner candidate search -/

theorem accepts_iff (pts : List V3) (md : Q) (cand : V3) :
    accepts pts md cand = true ↔ ∀ q ∈ pts, md * md < dist2 q cand := by
  simp [accepts]

theorem search_zero (S : GenStream) (T : Trig) (i : Nat) (pts : List V3) (angle : Q)
    (st : LoopState) (t : Nat) : search S T i pts angle st t 0 = none := rfl

theorem search_succ (S : GenStream) (T : Trig) (i : Nat) (pts : List V3) (angle : Q)
    (st : LoopState) (t fuel : Nat) :
    search S T i pts angle st t (fuel+1) =
      if accepts pts (relaxStep st).md (candidateAt S T i pts angle t)
      then some ⟨candidateAt S T i pts angle t,
                 (relaxStep st).md, (relaxStep st).ma, (relaxStep st).relax⟩
      else search S T i pts angle (rejectedNext st) (t+1) fuel := rfl

theorem relaxStep_relax_ge (st : LoopState) : st.relax ≤ (relaxStep st).relax := by
  unfold relaxStep
  split
  · exact Nat.le_succ _
  · exact Nat.le_refl _

theorem relaxStep_eq_of_relax (st : LoopState) (h : (relaxStep st).relax = st.relax) :
    relaxStep st = st := by
  unfold relaxStep at h ⊢
  by_cases hc : 1000 ≤ st.it
  · rw [if_pos hc] at h
    exact absurd h (Nat.succ_ne_self _)
  · rw [if_neg hc]

theorem relaxStep_ma_le (st : LoopState) (h : 0 ≤ st.ma) :
    (relaxStep st).ma ≤ st.ma ∧ 0 ≤ (relaxStep st).ma := by
  unfold relaxStep
  split
  · exact ⟨Q.mul_nine_tenths_le h, Q.mul_nine_tenths_nonneg h⟩
  · exact ⟨Q.le_refl _, h⟩

theorem relaxStep_md_le (st : LoopState) (h : 0 ≤ st.md) :
    (relaxStep st).md ≤ st.md ∧ 0 ≤ (relaxStep st).md := by
  unfold relaxStep
  split
  · exact ⟨Q.mul_nine_tenths_le h, Q.mul_nine_tenths_nonneg h⟩
  · exact ⟨Q.le_refl _, h⟩

/-- A successful search returns a point that passed the acceptance test at
the returned minimum distance, against every already accepted point. -/
theorem search_accepts (S : GenStream) (T : Trig) (i : Nat) (pts : List V3) (angle : Q) :
    ∀ (fuel : Nat) (st : LoopState) (t : Nat) (r : SearchRes),
      search S T i pts angle st t fuel = some r → accepts pts r.md r.pt = true
  | 0, st, t, r, h => by rw [search_zero] at h; cases h
  | fuel+1, st, t, r, h => by
    rw [search_succ] at h
    by_cases hacc : accepts pts (relaxStep st).md (candidateAt S T i pts angle t) = true
    · rw [if_pos hacc] at h
      cases h
      exact hacc
    · rw [if_neg hacc] at h
      exact search_accepts S T i pts angle fuel _ _ r h

/-- The relaxation counter never decreases during a search. -/
theorem search_relax_mono (S : GenStream) (T : Trig) (i : Nat) (pts : List V3) (angle : Q) :
    ∀ (fuel : Nat) (st : LoopState) (t : Nat) (r : SearchRes),
      search S T i pts angle st t fuel = some r → st.relax ≤ r.relax
  | 0, st, t, r, h => by rw [search_zero] at h; cases h
  | fuel+1, st, t, r, h => by
    rw [search_succ] at h
    by_cases hacc : accepts pts (relaxStep st).md (candidateAt S T i pts angle t) = true
    · rw [if_pos hacc] at h
      cases h
      exact relaxStep_relax_ge st
    · rw [if_neg hacc] at h
      exact Nat.le_trans (relaxStep_relax_ge st)
        (search_relax_mono S T i pts angle fuel (rejectedNext st) (t+1) r h)

/-- If a search fired no relaxation (the counter is unchanged), the
returned minimum distance and `max_angle` are exactly the starting ones. -/
theorem search_no_relax (S : GenStream) (T : Trig) (i : Nat) (pts : List V3) (angle : Q) :
    ∀ (fuel : Nat) (st : LoopState) (t : Nat) (r : SearchRes),
      search S T i pts angle st t fuel = some r → r.relax = st.relax →
      r.md = st.md ∧ r.ma = st.ma
  | 0, st, t, r, h, _ => by rw [search_zero] at h; cases h
  | fuel+1, st, t, r, h, hrel => by
    rw [search_succ] at h
    by_cases hacc : accepts pts (relaxStep st).md (candidateAt S T i pts angle t) = true
    · rw [if_pos hacc] at h
      cases h
      have := relaxStep_eq_of_relax st hrel
      rw [this]
      exact ⟨rfl, rfl⟩
    · rw [if_neg hacc] at h
      have hmono := search_relax_mono S T i pts angle fuel _ _ r h
      have hge := relaxStep_relax_ge st
      have heq : (relaxStep st).relax = st.relax := by
        have : (rejectedNext st).relax = (relaxStep st).relax := rfl
        omega
      have hfix := relaxStep_eq_of_relax st heq
      have hrel' : r.relax = (rejectedNext st).relax := by
        have : (rejectedNext st).relax = (relaxStep st).relax := rfl
        omega
      have := search_no_relax S T i pts angle fuel _ _ r h hrel'
      have hmd : (rejectedNext st).md = st.md := by
        show (relaxStep st).md = st.md
        rw [hfix]
      have hma : (rejectedNext st).ma = st.ma := by
        show (relaxStep st).ma = st.ma
        rw [hfix]
      exact ⟨this.1.trans hmd, this.2.trans hma⟩

/-- The `max_angle` never increases during a search (starting from a
nonnegative value), and stays nonnegative. -/
theorem search_ma_le (S : GenStream) (T : Trig) (i : Nat) (pts : List V3) (angle : Q) :
    ∀ (fuel : Nat) (st : LoopState) (t : Nat) (r : SearchRes),
      search S T i pts angle st t fuel = some r → 0 ≤ st.ma →
      r.ma ≤ st.ma ∧ 0 ≤ r.ma
  | 0, st, t, r, h, _ => by rw [search_zero] at h; cases h
  | fuel+1, st, t, r, h, hma => by
    rw [search_succ] at h
    by_cases hacc : accepts pts (relaxStep st).md (candidateAt S T i pts angle t) = true
    · rw [if_pos hacc] at h
      cases h
      exact relaxStep_ma_le st hma
    · rw [if_neg hacc] at h
      have hstep := relaxStep_ma_le st hma
      have := search_ma_le S T i pts angle fuel _ _ r h hstep.2
      exact ⟨Q.le_trans this.1 hstep.1, this.2⟩

/-- The working minimum distance never increases during a search (starting
from a nonnegative value), and stays nonnegative. -/
theorem search_md_le (S : GenStream) (T : Trig) (i : Nat) (pts : List V3) (angle : Q) :
    ∀ (fuel : Nat) (st : LoopState) (t : Nat) (r : SearchRes),
      search S T i pts angle st t fuel = some r → 0 ≤ st.md →
      r.md ≤ st.md ∧ 0 ≤ r.md
  | 0, st, t, r, h, _ => by rw [search_zero] at h; cases h
  | fuel+1, st, t, r, h, hmd => by
    rw [search_succ] at h
    by_cases hacc : accepts pts (relaxStep st).md (candidateAt S T i pts angle t) = true
    · rw [if_pos hacc] at h
      cases h
      exact relaxStep_md_le st hmd
    · rw [if_neg hacc] at h
      have hstep := relaxStep_md_le st hmd
      have := search_md_le S T i pts angle fuel _ _ r h hstep.2
      exact ⟨Q.le_trans this.1 hstep.1, this.2⟩

theorem stateAt_shift (st : LoopState) :
    ∀ s : Nat, stateAt (rejectedNext st) s = stateAt st (s+1)
  | 0 => rfl
  | s+1 => by
    show rejectedNext (stateAt (rejectedNext st) s) = rejectedNext (stateAt st (s+1))
    rw [stateAt_shift st s]

/-- Characterisation of search failure: the search returns no point within
`fuel` attempts exactly when every one of those attempts proposed a
candidate that failed the acceptance test at the then-current minimum
distance.  Exceeding the iteration budget is never itself a failure: it
only relaxes the state (through `relaxStep` inside `stateAt`) and the
search continues. -/
theorem search_none_iff (S : GenStream) (T : Trig) (i : Nat) (pts : List V3) (angle : Q) :
    ∀ (fuel : Nat) (st : LoopState) (t : Nat),
      search S T i pts angle st t fuel = none ↔
        ∀ s, s < fuel →
          accepts pts (relaxStep (stateAt st s)).md
            (candidateAt S T i pts angle (t + s)) = false
  | 0, st, t => by
    rw [search_zero]
    simp
  | fuel+1, st, t => by
    rw [search_succ]
    by_cases hacc : accepts pts (relaxStep st).md (candidateAt S T i pts angle t) = true
    · rw [if_pos hacc]
      constructor
      · intro h
        cases h
      · intro h
        have h0 := h 0 (Nat.succ_pos fuel)
        rw [Nat.add_zero] at h0
        rw [show stateAt st 0 = st from rfl] at h0
        rw [hacc] at h0
        cases h0
    · rw [if_neg hacc]
      rw [search_none_iff S T i pts angle fuel (rejectedNext st) (t+1)]
      constructor
      · intro h s hs
        match s with
        | 0 =>
          rw [Nat.add_zero]
          rw [show stateAt st 0 = st from rfl]
          exact Bool.eq_false_iff.mpr hacc
        | s'+1 =>
          have := h s' (Nat.lt_of_succ_lt_succ hs)
          rw [stateAt_shift st s'] at this
          rw [show t + 1 + s' = t + (s' + 1) by omega] at this
          exact this
      · intro h s hs
        have := h (s+1) (Nat.succ_lt_succ hs)
        rw [← stateAt_shift st s] at this
        rw [show t + (s + 1) = t + 1 + s by omega] at this
        exact this

/-! ### Lemmas about the outer sampling loop -/

theorem poissonGo_zero (S : GenStream) (T : Trig) (radius : Q) (i : Nat) (pts : List V3)
    (ma : Q) (relax fuel : Nat) : poissonGo S T radius 0 i pts ma relax fuel = some [] := rfl

/-- Inversion of one step of the outer loop. -/
theorem poissonGo_succ_inv {S : GenStream} {T : Trig} {radius : Q} {need i : Nat}
    {pts : List V3} {ma : Q} {relax fuel : Nat} {tr : List TraceEntry}
    (h : poissonGo S T radius (need+1) i pts ma relax fuel = some tr) :
    ∃ r tr',
      search S T i pts (S.angleMult i * ma) ⟨0, mdInit S T radius i ma, ma, relax⟩ 0 fuel
        = some r ∧
      poissonGo S T radius need (i+1) (pts ++ [r.pt]) r.ma r.relax fuel = some tr' ∧
      tr = ⟨r.pt, r.md, S.angleMult i * ma, ma, r.relax⟩ :: tr' := by
  simp only [poissonGo] at h
  cases hs : search S T i pts (S.angleMult i * ma) ⟨0, mdInit S T radius i ma, ma, relax⟩ 0 fuel with
  | none => rw [hs] at h; simp at h
  | some r =>
    rw [hs] at h
    simp only at h
    cases hp : poissonGo S T radius need (i+1) (pts ++ [r.pt]) r.ma r.relax fuel with
    | none => rw [hp] at h; simp at h
    | some tr' =>
      rw [hp] at h
      simp only [Option.some.injEq] at h
      exact ⟨r, tr', rfl, hp, h.symm⟩

theorem poissonGo_length (S : GenStream) (T : Trig) (radius : Q) :
    ∀ (need i : Nat) (pts : List V3) (ma : Q) (relax fuel : Nat) (tr : List TraceEntry),
      poissonGo S T radius need i pts ma relax fuel = some tr → tr.length = need
  | 0, i, pts, ma, relax, fuel, tr, h => by
    rw [poissonGo_zero] at h
    cases h
    rfl
  | need+1, i, pts, ma, relax, fuel, tr, h => by
    obtain ⟨r, tr', hs, hp, rfl⟩ := poissonGo_succ_inv h
    simp [poissonGo_length S T radius need (i+1) _ r.ma r.relax fuel tr' hp]

/-- Every accepted point passed the acceptance test, at its recorded
minimum distance, against all points accepted before it. -/
theorem poissonGo_accepts (S : GenStream) (T : Trig) (radius : Q) :
    ∀ (need i : Nat) (pts : List V3) (ma : Q) (relax fuel : Nat) (tr : List TraceEntry),
      poissonGo S T radius need i pts ma relax fuel = some tr →
      ∀ j (hj : j < tr.length),
        accepts (pts ++ (tr.take j).map (·.pt)) (tr.get ⟨j, hj⟩).md (tr.get ⟨j, hj⟩).pt = true
  | 0, i, pts, ma, relax, fuel, tr, h => by
    rw [poissonGo_zero] at h
    cases h
    intro j hj
    cases hj
  | need+1, i, pts, ma, relax, fuel, tr, h => by
    obtain ⟨r, tr', hs, hp, rfl⟩ := poissonGo_succ_inv h
    intro j hj
    match j with
    | 0 =>
      simpa using search_accepts S T i pts (S.angleMult i * ma) fuel _ 0 r hs
    | j'+1 =>
      have hj' : j' < tr'.length := by simpa using hj
      have := poissonGo_accepts S T radius need (i+1) (pts ++ [r.pt]) r.ma r.relax fuel tr' hp j' hj'
      simpa [List.append_assoc] using this

/-- The run-wide relaxation counter at each acceptance is at least its
starting value. -/
theorem poissonGo_relax_ge (S : GenStream) (T : Trig) (radius : Q) :
    ∀ (need i : Nat) (pts : List V3) (ma : Q) (relax fuel : Nat) (tr : List TraceEntry),
      poissonGo S T radius need i pts ma relax fuel = some tr →
      ∀ j (hj : j < tr.length), relax ≤ (tr.get ⟨j, hj⟩).relax
  | 0, i, pts, ma, relax, fuel, tr, h => by
    rw [poissonGo_zero] at h
    cases h
    intro j hj
    cases hj
  | need+1, i, pts, ma, relax, fuel, tr, h => by
    obtain ⟨r, tr', hs, hp, rfl⟩ := poissonGo_succ_inv h
    intro j hj
    match j with
    | 0 =>
      simpa using search_relax_mono S T i pts (S.angleMult i * ma) fuel _ 0 r hs
    | j'+1 =>
      have hj' : j' < tr'.length := by simpa using hj
      have h1 := search_relax_mono S T i pts (S.angleMult i * ma) fuel _ 0 r hs
      have h2 := poissonGo_relax_ge S T radius need (i+1) (pts ++ [r.pt]) r.ma r.relax fuel tr' hp j' hj'
      simpa using Nat.le_trans h1 h2

/-- If no relaxation has fired up to (and including) the acceptance of a
point, that point's enforced minimum distance is exactly the initial
target `mdInit`, its angle was drawn against the unchanged `max_angle`,
and the `max_angle` it saw is the unchanged one. -/
theorem poissonGo_no_relax (S : GenStream) (T : Trig) (radius : Q) :
    ∀ (need i : Nat) (pts : List V3) (ma : Q) (relax fuel : Nat) (tr : List TraceEntry),
      poissonGo S T radius need i pts ma relax fuel = some tr →
      ∀ j (hj : j < tr.length), (tr.get ⟨j, hj⟩).relax = relax →
        (tr.get ⟨j, hj⟩).md = mdInit S T radius (i+j) ma ∧
        (tr.get ⟨j, hj⟩).angle = S.angleMult (i+j) * ma ∧
        (tr.get ⟨j, hj⟩).maStart = ma
  | 0, i, pts, ma, relax, fuel, tr, h => by
    rw [poissonGo_zero] at h
    cases h
    intro j hj
    cases hj
  | need+1, i, pts, ma, relax, fuel, tr, h => by
    obtain ⟨r, tr', hs, hp, rfl⟩ := poissonGo_succ_inv h
    intro j hj hrel
    match j with
    | 0 =>
      have hrel0 : r.relax = relax := by simpa using hrel
      have := search_no_relax S T i pts (S.angleMult i * ma) fuel _ 0 r hs hrel0
      refine ⟨?_, by simp, by simp⟩
      simpa using this.1
    | j'+1 =>
      have hj' : j' < tr'.length := by simpa using hj
      have hrel' : (tr'.get ⟨j', hj'⟩).relax = relax := by simpa using hrel
      have hge1 : relax ≤ r.relax :=
        search_relax_mono S T i pts (S.angleMult i * ma) fuel _ 0 r hs
      have hge2 := poissonGo_relax_ge S T radius need (i+1) (pts ++ [r.pt]) r.ma r.relax fuel tr' hp j' hj'
      have hreq : r.relax = relax := by omega
      have hnr := search_no_relax S T i pts (S.angleMult i * ma) fuel _ 0 r hs hreq
      have hma : r.ma = ma := hnr.2
      have := poissonGo_no_relax S T radius need (i+1) (pts ++ [r.pt]) r.ma r.relax fuel tr' hp j' hj'
        (by rw [hrel', hreq])
    -- re-index: (i+1)+j' = i+(j'+1)
      have hidx : i + 1 + j' = i + (j' + 1) := by omega
      rw [hma, hidx] at this
      simpa using this

/-- Each acceptance sees a `max_angle` no larger than the starting one
(and still nonnegative). -/
theorem poissonGo_maStart_le (S : GenStream) (T : Trig) (radius : Q) :
    ∀ (need i : Nat) (pts : List V3) (ma : Q) (relax fuel : Nat) (tr : List TraceEntry),
      poissonGo S T radius need i pts ma relax fuel = some tr → 0 ≤ ma →
      ∀ j (hj : j < tr.length), (tr.get ⟨j, hj⟩).maStart ≤ ma ∧ 0 ≤ (tr.get ⟨j, hj⟩).maStart
  | 0, i, pts, ma, relax, fuel, tr, h, _ => by
    rw [poissonGo_zero] at h
    cases h
    intro j hj
    cases hj
  | need+1, i, pts, ma, relax, fuel, tr, h, hma => by
    obtain ⟨r, tr', hs, hp, rfl⟩ := poissonGo_succ_inv h
    intro j hj
    match j with
    | 0 =>
      exact ⟨Q.le_refl _, hma⟩
    | j'+1 =>
      have hj' : j' < tr'.length := by simpa using hj
      have hml := search_ma_le S T i pts (S.angleMult i * ma) fuel _ 0 r hs hma
      have := poissonGo_maStart_le S T radius need (i+1) (pts ++ [r.pt]) r.ma r.relax fuel tr' hp hml.2 j' hj'
      exact ⟨Q.le_trans this.1 hml.1, this.2⟩

/-- The `max_angle` seen at successive acceptances never increases. -/
theorem poissonGo_maStart_mono (S : GenStream) (T : Trig) (radius : Q) :
    ∀ (need i : Nat) (pts : List V3) (ma : Q) (relax fuel : Nat) (tr : List TraceEntry),
      poissonGo S T radius need i pts ma relax fuel = some tr → 0 ≤ ma →
      ∀ j j' (hj : j < tr.length) (hj' : j' < tr.length), j ≤ j' →
        (tr.get ⟨j', hj'⟩).maStart ≤ (tr.get ⟨j, hj⟩).maStart
  | 0, i, pts, ma, relax, fuel, tr, h, _ => by
    rw [poissonGo_zero] at h
    cases h
    intro j j' hj hj'
    cases hj
  | need+1, i, pts, ma, relax, fuel, tr, h, hma => by
    obtain ⟨r, tr', hs, hp, rfl⟩ := poissonGo_succ_inv h
    intro j j' hj hj' hle
    have hml := search_ma_le S T i pts (S.angleMult i * ma) fuel _ 0 r hs hma
    match j, j' with
    | 0, 0 => exact Q.le_refl _
    | 0, k'+1 =>
      have hk' : k' < tr'.length := by simpa using hj'
      have := poissonGo_maStart_le S T radius need (i+1) (pts ++ [r.pt]) r.ma r.relax fuel tr' hp hml.2 k' hk'
      simpa using Q.le_trans this.1 hml.1
    | k+1, 0 => omega
    | k+1, k'+1 =>
      have hk : k < tr'.length := by simpa using hj
      have hk' : k' < tr'.length := by simpa using hj'
      have := poissonGo_maStart_mono S T radius need (i+1) (pts ++ [r.pt]) r.ma r.relax fuel tr' hp hml.2 k k' hk hk' (by omega)
      simpa using this

/-- The minimum distance actually enforced for each accepted point is at
most its initial target (relaxation can only have lowered it). -/
theorem poissonGo_md_le (S : GenStream) (T : Trig) (radius : Q)
    (hsin : ∀ x, 0 ≤ T.sinq x) (hrad : 0 ≤ radius) :
    ∀ (need i : Nat) (pts : List V3) (ma : Q) (relax fuel : Nat) (tr : List TraceEntry),
      poissonGo S T radius need i pts ma relax fuel = some tr →
      ∀ j (hj : j < tr.length),
        (tr.get ⟨j, hj⟩).md
          ≤ 2 * radius * T.sinq ((tr.get ⟨j, hj⟩).angle * qdiv 1 2) * qdiv 9 10
  | 0, i, pts, ma, relax, fuel, tr, h => by
    rw [poissonGo_zero] at h
    cases h
    intro j hj
    cases hj
  | need+1, i, pts, ma, relax, fuel, tr, h => by
    obtain ⟨r, tr', hs, hp, rfl⟩ := poissonGo_succ_inv h
    intro j hj
    match j with
    | 0 =>
      have h2 : (0:Q) ≤ 2 := by decide
      have hmd0 : 0 ≤ mdInit S T radius i ma :=
        Q.mul_nine_tenths_nonneg (Q.mul_nonneg (Q.mul_nonneg h2 hrad) (hsin _))
      have := search_md_le S T i pts (S.angleMult i * ma) fuel _ 0 r hs hmd0
      simpa [mdInit] using this.1
    | j'+1 =>
      have hj' : j' < tr'.length := by simpa using hj
      have := poissonGo_md_le S T radius hsin hrad need (i+1) (pts ++ [r.pt]) r.ma r.relax fuel tr' hp j' hj'
      simpa using this

/-! ### Lemmas about graph merging -/

theorem merge_nil (base : UGraph) : merge_undirected_graphs base [] = base := rfl

theorem merge_cons (base g : UGraph) (gs : List UGraph) :
    merge_undirected_graphs base (g :: gs) =
      merge_undirected_graphs
        ⟨base.nodes ++ g.nodes,
         base.edges ++ g.edges.map fun e => (e.1 + base.nodes.length, e.2 + base.nodes.length)⟩
        gs := rfl

theorem merge_nodes : ∀ (gs : List UGraph) (base : UGraph),
    (merge_undirected_graphs base gs).nodes = base.nodes ++ (gs.map (·.nodes)).flatten
  | [], base => by simp [merge_nil]
  | g :: gs, base => by
    rw [merge_cons, merge_nodes gs]
    simp [List.append_assoc]

theorem merge_edges : ∀ (gs : List UGraph) (base : UGraph),
    (merge_undirected_graphs base gs).edges = base.edges ++ mergeEdgesSpec gs base.nodes.length
  | [], base => by simp [merge_nil, mergeEdgesSpec]
  | g :: gs, base => by
    rw [merge_cons, merge_edges gs]
    simp [mergeEdgesSpec, List.append_assoc, List.length_append]

theorem mergeEdgesSpec_ge : ∀ (gs : List UGraph) (off : Nat) (e : Nat × Nat),
    e ∈ mergeEdgesSpec gs off → off ≤ e.1 ∧ off ≤ e.2
  | [], off, e, h => by cases h
  | g :: gs, off, e, h => by
    rw [mergeEdgesSpec] at h
    rcases List.mem_append.mp h with h1 | h2
    · obtain ⟨f, _, rfl⟩ := List.mem_map.mp h1
      constructor <;> simp
    · have := mergeEdgesSpec_ge gs (off + g.nodes.length) e h2
      omega

theorem eqUnordered_iff (e f : Nat × Nat) :
    eqUnordered e f = true ↔ ((e.1 = f.1 ∧ e.2 = f.2) ∨ (e.1 = f.2 ∧ e.2 = f.1)) := by
  simp [eqUnordered]

theorem eqUnordered_false_iff (e f : Nat × Nat) :
    eqUnordered e f = false ↔ ¬((e.1 = f.1 ∧ e.2 = f.2) ∨ (e.1 = f.2 ∧ e.2 = f.1)) := by
  rw [← eqUnordered_iff]
  cases h : eqUnordered e f <;> simp

theorem eqUnordered_shift (e f : Nat × Nat) (L : Nat) :
    eqUnordered (e.1 + L, e.2 + L) (f.1 + L, f.2 + L) = eqUnordered e f := by
  rw [Bool.eq_iff_iff, eqUnordered_iff, eqUnordered_iff]
  dsimp only
  omega

/-- Merging preserves simplicity and in-range endpoints. -/
theorem merge_simple : ∀ (gs : List UGraph) (base : UGraph),
    Simple base → EdgesBelow base base.nodes.length →
    (∀ g ∈ gs, Simple g ∧ EdgesBelow g g.nodes.length) →
    Simple (merge_undirected_graphs base gs) ∧
      EdgesBelow (merge_undirected_graphs base gs)
        (merge_undirected_graphs base gs).nodes.length
  | [], base, hs, hb, _ => by
    rw [merge_nil]
    exact ⟨hs, hb⟩
  | g :: gs, base, hs, hb, hgs => by
    rw [merge_cons]
    have hg := hgs g (.head gs)
    set L := base.nodes.length with hL
    have hsimple :
        Simple ⟨base.nodes ++ g.nodes,
          base.edges ++ g.edges.map fun e => (e.1 + L, e.2 + L)⟩ := by
      constructor
      · intro e he
        rcases List.mem_append.mp he with h1 | h2
        · exact hs.1 e h1
        · obtain ⟨f, hf, rfl⟩ := List.mem_map.mp h2
          have := hg.1.1 f hf
          dsimp only
          omega
      · rw [List.pairwise_append]
        refine ⟨hs.2, ?_, ?_⟩
        · refine List.Pairwise.map _ ?_ hg.1.2
          intro a b hab
          rw [show ((a.1 + L, a.2 + L) : Nat × Nat) = ((a.1, a.2).1 + L, (a.1, a.2).2 + L) from rfl]
          rw [show ((b.1 + L, b.2 + L) : Nat × Nat) = ((b.1, b.2).1 + L, (b.1, b.2).2 + L) from rfl]
          rw [eqUnordered_shift]
          simpa using hab
        · intro a ha b hbm
          obtain ⟨f, hf, rfl⟩ := List.mem_map.mp hbm
          have ha' := hb a ha
          rw [eqUnordered_false_iff]
          dsimp only
          omega
    have hbelow :
        EdgesBelow ⟨base.nodes ++ g.nodes,
            base.edges ++ g.edges.map fun e => (e.1 + L, e.2 + L)⟩
          (base.nodes ++ g.nodes).length := by
      intro e he
      rw [List.length_append]
      rcases List.mem_append.mp he with h1 | h2
      · have := hb e h1
        omega
      · obtain ⟨f, hf, rfl⟩ := List.mem_map.mp h2
        have := hg.2 f hf
        dsimp only
        omega
    exact merge_simple gs _ hsimple hbelow (fun g' hg' => hgs g' (.tail _ hg'))

/-- Degree bookkeeping over the merged edge list: the edges incident to
global node `off + offsetBefore gs c + i` are exactly the images of the
edges of graph `c` incident to its local node `i`. -/
theorem degree_mergeEdgesSpec : ∀ (gs : List UGraph) (off c i : Nat)
    (hval : ∀ g ∈ gs, EdgesBelow g g.nodes.length) (hc : c < gs.length),
    i < (gs.get ⟨c, hc⟩).nodes.length →
    ((mergeEdgesSpec gs off).countP fun e =>
        decide (e.1 = off + offsetBefore gs c + i) || decide (e.2 = off + offsetBefore gs c + i))
      = degree (gs.get ⟨c, hc⟩) i
  | [], off, c, i, hval, hc => by cases hc
  | g :: gs, off, 0, i, hval, hc => by
    intro hi
    rw [mergeEdgesSpec, List.countP_append, List.countP_map]
    have hoff : offsetBefore (g :: gs) 0 = 0 := rfl
    rw [hoff]
    have h1 : (g.edges.countP
        ((fun e => decide (e.1 = off + 0 + i) || decide (e.2 = off + 0 + i)) ∘
          fun e => (e.1 + off, e.2 + off)))
        = g.edges.countP fun e => decide (e.1 = i) || decide (e.2 = i) := by
      apply List.countP_congr
      intro e _
      simp only [Function.comp, Bool.or_eq_true, decide_eq_true_eq]
      omega
    have h2 : ((mergeEdgesSpec gs (off + g.nodes.length)).countP fun e =>
        decide (e.1 = off + 0 + i) || decide (e.2 = off + 0 + i)) = 0 := by
      rw [List.countP_eq_zero]
      intro e he
      have := mergeEdgesSpec_ge gs (off + g.nodes.length) e he
      have hi' : i < g.nodes.length := hi
      simp only [Bool.or_eq_true, decide_eq_true_eq]
      omega
    rw [h1, h2, degree, ← List.countP_eq_length_filter]
    rfl
  | g :: gs, off, c+1, i, hval, hc => by
    intro hi
    rw [mergeEdgesSpec, List.countP_append, List.countP_map]
    have hoff : offsetBefore (g :: gs) (c+1) = g.nodes.length + offsetBefore gs c := by
      simp [offsetBefore, List.take_cons]
    have h1 : (g.edges.countP
        ((fun e => decide (e.1 = off + offsetBefore (g :: gs) (c+1) + i)
            || decide (e.2 = off + offsetBefore (g :: gs) (c+1) + i)) ∘
          fun e => (e.1 + off, e.2 + off))) = 0 := by
      rw [List.countP_eq_zero]
      intro e he
      have := hval g (.head gs) e he
      simp only [Function.comp, Bool.or_eq_true, decide_eq_true_eq, hoff]
      omega
    have hc' : c < gs.length := by simpa using hc
    have hi' : i < (gs.get ⟨c, hc'⟩).nodes.length := by simpa using hi
    have h2 := degree_mergeEdgesSpec gs (off + g.nodes.length) c i
      (fun g' hg' => hval g' (.tail _ hg')) hc' hi'
    have harg : (fun (e : Nat × Nat) =>
        decide (e.1 = off + offsetBefore (g :: gs) (c+1) + i)
          || decide (e.2 = off + offsetBefore (g :: gs) (c+1) + i))
        = fun e => decide (e.1 = off + g.nodes.length + offsetBefore gs c + i)
          || decide (e.2 = off + g.nodes.length + offsetBefore gs c + i) := by
      funext e
      rw [Bool.eq_iff_iff]
      simp only [Bool.or_eq_true, decide_eq_true_eq, hoff]
      omega
    rw [h1, harg]
    rw [h2]
    simp

/-! ### Lemmas about the per-cluster graph construction -/

theorem nearestN_mem_lt {pts : List V3} {q : V3} {m j : Nat}
    (h : j ∈ nearestN pts q m) : j < pts.length := by
  have h1 : j ∈ insertionSort
      (fun i j => decide (dist2 (pts.getD i ⟨0,0,0⟩) q ≤ dist2 (pts.getD j ⟨0,0,0⟩) q))
      (List.range pts.length) := List.mem_of_mem_take h
  have h2 := (insertionSort_perm
      (fun i j => decide (dist2 (pts.getD i ⟨0,0,0⟩) q ≤ dist2 (pts.getD j ⟨0,0,0⟩) q))
      (List.range pts.length)).mem_iff.mp h1
  exact List.mem_range.mp h2

/-- Invariant preserved by the edge-adding loop: node list unchanged,
simplicity, and endpoints in range. -/
theorem addEdgesFor_pres (cluster : List V3) (i m : Nat) (hi : i < cluster.length)
    (g : UGraph) (hn : g.nodes = cluster) (hs : Simple g)
    (hb : EdgesBelow g cluster.length) :
    (addEdgesFor cluster g i m).nodes = cluster ∧
      Simple (addEdgesFor cluster g i m) ∧
      EdgesBelow (addEdgesFor cluster g i m) cluster.length := by
  unfold addEdgesFor
  refine foldlRec (P := fun g2 =>
    g2.nodes = cluster ∧ Simple g2 ∧ EdgesBelow g2 cluster.length) _ _ _ ⟨hn, hs, hb⟩ ?_
  intro g2 j hj ⟨hn2, hs2, hb2⟩
  by_cases hij : i = j
  · rw [if_pos hij]
    exact ⟨hn2, hs2, hb2⟩
  · rw [if_neg hij]
    by_cases hce : containsEdge g2 i j
    · rw [if_pos hce]
      exact ⟨hn2, hs2, hb2⟩
    · rw [if_neg hce]
      have hjlt : j < cluster.length := nearestN_mem_lt hj
      refine ⟨hn2, ⟨?_, ?_⟩, ?_⟩
      · intro e he
        rcases List.mem_append.mp he with h1 | h2
        · exact hs2.1 e h1
        · rw [List.mem_singleton] at h2
          subst h2
          exact hij
      · show List.Pairwise _ (g2.edges ++ [(i, j)])
        rw [List.pairwise_append]
        refine ⟨hs2.2, List.pairwise_singleton _ _, ?_⟩
        intro a ha b hbm
        rw [List.mem_singleton] at hbm
        subst hbm
        have hfalse : g2.edges.any (fun e => eqUnordered e (i, j)) = false :=
          Bool.eq_false_iff.mpr hce
        have := List.any_eq_false.mp hfalse a ha
        cases h : eqUnordered a (i, j)
        · rfl
        · exact absurd h this
      · intro e he
        rcases List.mem_append.mp he with h1 | h2
        · exact hb2 e h1
        · rw [List.mem_singleton] at h2
          subst h2
          exact ⟨hi, hjlt⟩

/-- Specification of one per-cluster graph: its node list is the cluster's
point list, it is simple, and its edges stay within the cluster. -/
theorem buildClusterGraph_spec {S : GenStream} {maxNC c : Nat} {cluster : List V3}
    {g : UGraph} (h : buildClusterGraph S maxNC c cluster = some g) :
    g.nodes = cluster ∧ Simple g ∧ EdgesBelow g cluster.length := by
  unfold buildClusterGraph at h
  split at h
  · cases h
  · rw [Option.some.injEq] at h
    subst h
    have hinit : (⟨cluster, []⟩ : UGraph).nodes = cluster ∧ Simple ⟨cluster, []⟩ ∧
        EdgesBelow (⟨cluster, []⟩ : UGraph) cluster.length := by
      refine ⟨rfl, ⟨?_, ?_⟩, ?_⟩
      · intro e he
        simp at he
      · exact List.Pairwise.nil
      · intro e he
        simp at he
    refine foldlRec (P := fun g2 =>
      g2.nodes = cluster ∧ Simple g2 ∧ EdgesBelow g2 cluster.length) _ _ _ hinit ?_
    intro g2 i hi ⟨hn2, hs2, hb2⟩
    exact addEdgesFor_pres cluster i _ (List.mem_range.mp hi) g2 hn2 hs2 hb2

/-- Specification of the per-cluster graph list: node lists are exactly the
cluster point lists, and every graph is simple with in-range edges. -/
theorem clusterGraphs_spec {S : GenStream} {maxNC : Nat} :
    ∀ {c : Nat} {clusters : List (List V3 × V3)} {gs : List UGraph},
      clusterGraphs S maxNC c clusters = some gs →
      gs.map (·.nodes) = clusters.map (·.1) ∧
        ∀ g ∈ gs, Simple g ∧ EdgesBelow g g.nodes.length := by
  intro c clusters
  induction clusters generalizing c with
  | nil =>
    intro gs h
    rw [clusterGraphs, Option.some.injEq] at h
    subst h
    exact ⟨rfl, fun g hg => absurd hg (List.not_mem_nil g)⟩
  | cons cl rest ih =>
    intro gs h
    rw [clusterGraphs] at h
    cases hb : buildClusterGraph S maxNC c cl.1 with
    | none => rw [hb] at h; cases h
    | some g =>
      rw [hb] at h
      simp only at h
      cases hr : clusterGraphs S maxNC (c+1) rest with
      | none => rw [hr] at h; simp [Option.map] at h
      | some gs' =>
        rw [hr] at h
        simp only [Option.map, Option.some.injEq] at h
        subst h
        obtain ⟨hnodes, hsimple⟩ := ih hr
        obtain ⟨hn, hs, hbnd⟩ := buildClusterGraph_spec hb
        refine ⟨by simp [hn, hnodes], ?_⟩
        intro g' hg'
        rcases List.mem_cons.mp hg' with rfl | htail
        · exact ⟨hs, by rw [hn]; exact hbnd⟩
        · exact hsimple g' htail

/-! ### Lemmas about the clustering stage -/

theorem nearestIdxAux_lt (p : V3) :
    ∀ (rest : List V3) (cur best : Nat) (bestD : Q), best < cur →
      nearestIdxAux p rest cur best bestD < cur + rest.length
  | [], cur, best, bestD, h => by
    rw [nearestIdxAux]
    simpa using h
  | c :: rest, cur, best, bestD, h => by
    rw [nearestIdxAux]
    by_cases hlt : dist2 c p < bestD
    · rw [if_pos hlt]
      have := nearestIdxAux_lt p rest (cur+1) cur (dist2 c p) (Nat.lt_succ_self cur)
      simpa [Nat.add_comm, Nat.add_assoc, Nat.add_left_comm] using this
    · rw [if_neg hlt]
      have := nearestIdxAux_lt p rest (cur+1) best (dist2 c p) (Nat.lt_succ_of_lt h)
      · simpa [Nat.add_comm, Nat.add_assoc, Nat.add_left_comm] using
          nearestIdxAux_lt p rest (cur+1) best bestD (Nat.lt_succ_of_lt h)

theorem nearestIdx_lt {cs : List V3} {p : V3} {k : Nat}
    (h : nearestIdx cs p = some k) : k < cs.length := by
  match cs, h with
  | c :: rest, h =>
    rw [nearestIdx, Option.some.injEq] at h
    subst h
    have := nearestIdxAux_lt p rest 1 0 (dist2 c p) Nat.one_pos
    simp only [List.length_cons]
    omega

theorem modifyAt_length (f : α → α) : ∀ (l : List α) (i : Nat),
    (modifyAt f l i).length = l.length
  | [], _ => rfl
  | a :: l, 0 => rfl
  | a :: l, i+1 => by
    rw [modifyAt]
    simp [modifyAt_length f l i]

theorem clusterSizes_modifyAt_push (p : V3) :
    ∀ (l : List (List V3 × V3)) (i : Nat), i < l.length →
      clusterSizes (modifyAt (fun cl => (cl.1 ++ [p], cl.2)) l i) = clusterSizes l + 1
  | [], i, h => by cases h
  | a :: l, 0, _ => by
    simp [modifyAt, clusterSizes]
    omega
  | a :: l, i+1, h => by
    rw [modifyAt]
    have := clusterSizes_modifyAt_push p l i (by simpa using h)
    simp [clusterSizes] at this ⊢
    omega

/-- The assignment loop puts every point into exactly one cluster: total
cluster size grows by the number of points assigned, and the cluster list
length never changes. -/
theorem assignPoints_sizes (centroids : List V3) :
    ∀ (pts : List V3) (acc acc' : List (List V3 × V3)),
      acc.length = centroids.length →
      assignPoints centroids pts acc = some acc' →
      clusterSizes acc' = clusterSizes acc + pts.length ∧ acc'.length = acc.length
  | [], acc, acc', hlen, h => by
    rw [assignPoints, Option.some.injEq] at h
    subst h
    simp
  | p :: rest, acc, acc', hlen, h => by
    rw [assignPoints] at h
    cases hn : nearestIdx centroids p with
    | none => rw [hn] at h; cases h
    | some idx =>
      rw [hn] at h
      simp only at h
      have hidx : idx < acc.length := by
        rw [hlen]
        exact nearestIdx_lt hn
      have hlen' : (modifyAt (fun cl => (cl.1 ++ [p], cl.2)) acc idx).length = centroids.length := by
        rw [modifyAt_length]
        exact hlen
      obtain ⟨h1, h2⟩ := assignPoints_sizes centroids rest _ acc' hlen' h
      constructor
      · rw [h1, clusterSizes_modifyAt_push p acc idx hidx]
        simp
        omega
      · rw [h2, modifyAt_length]

theorem sortClustersByY_perm (cs : List (List V3 × V3)) :
    (sortClustersByY cs).Perm cs :=
  insertionSort_perm _ cs

theorem clusterSizes_perm {cs cs' : List (List V3 × V3)} (h : cs.Perm cs') :
    clusterSizes cs = clusterSizes cs' :=
  List.Perm.sum_eq (h.map (·.1.length))

/-- Inversion of `cluster_voronoi`: the produced clusters hold every input
point exactly once (total size is the point count). -/
theorem cluster_voronoi_sizes {S : GenStream} {points : List V3} {k : Nat}
    {clusters : List (List V3 × V3)}
    (h : cluster_voronoi S points k = some clusters) :
    clusterSizes clusters = points.length := by
  unfold cluster_voronoi at h
  have h' : Option.map sortClustersByY
      (assignPoints (chooseMultiple S.centroidPick 0 k points) points
        ((chooseMultiple S.centroidPick 0 k points).map fun c => ([], c))) = some clusters := h
  clear h
  rename' h' => h
  cases ha : assignPoints (chooseMultiple S.centroidPick 0 k points) points
      ((chooseMultiple S.centroidPick 0 k points).map fun c => ([], c)) with
  | none => rw [ha] at h; simp [Option.map] at h
  | some acc' =>
    rw [ha] at h
    simp only [Option.map, Option.some.injEq] at h
    subst h
    have hlen : ((chooseMultiple S.centroidPick 0 k points).map
        fun c => (([] : List V3), c)).length = (chooseMultiple S.centroidPick 0 k points).length := by
      simp
    obtain ⟨h1, _⟩ := assignPoints_sizes _ points _ acc' hlen ha
    have hinit : clusterSizes ((chooseMultiple S.centroidPick 0 k points).map
        fun c => (([] : List V3), c)) = 0 := by
      have hz : ∀ l : List V3, clusterSizes (l.map fun c => (([] : List V3), c)) = 0 := by
        intro l
        induction l with
        | nil => rfl
        | cons a l ih => simpa [clusterSizes] using ih
      exact hz _
    rw [clusterSizes_perm (sortClustersByY_perm acc'), h1, hinit]
    omega

/-! ### Lemmas about the island (connected component) computation -/

theorem countP_eq_one_of_nodup {α : Type} [DecidableEq α] :
    ∀ {l : List α}, l.Nodup → ∀ {a : α}, a ∈ l →
      l.countP (fun r => decide (a = r)) = 1
  | [], _, a, ha => by cases ha
  | b :: l, hnd, a, ha => by
    rw [List.countP_cons]
    rcases List.mem_cons.mp ha with rfl | htail
    · have hz : l.countP (fun r => decide (a = r)) = 0 := by
        rw [List.countP_eq_zero]
        intro x hx
        simp only [decide_eq_true_eq]
        intro hax
        subst hax
        exact (List.nodup_cons.mp hnd).1 hx
      simp [hz]
    · have hne : a ≠ b := by
        intro hab
        subst hab
        exact (List.nodup_cons.mp hnd).1 htail
      have := countP_eq_one_of_nodup (List.nodup_cons.mp hnd).2 htail
      simp [this, hne]

/-- Every node below the node count lies in exactly one island. -/
theorem sccList_count_one (g : UGraph) {v : Nat} (hv : v < g.nodes.length) :
    (sccList g).countP (fun isl => decide (v ∈ isl)) = 1 := by
  unfold sccList
  rw [List.countP_map]
  have hcongr : ∀ r ∈ (((List.range g.nodes.length).map (rep g)).dedup),
      ((fun isl => decide (v ∈ isl)) ∘
        fun r => (List.range g.nodes.length).filter fun i => decide (rep g i = r)) r = true ↔
        (fun r => decide (rep g v = r)) r = true := by
    intro r _
    simp only [Function.comp, decide_eq_true_eq, List.mem_filter, List.mem_range]
    constructor
    · intro h
      exact h.2
    · intro h
      exact ⟨hv, h⟩
  rw [List.countP_congr hcongr]
  apply countP_eq_one_of_nodup (List.nodup_dedup _)
  rw [List.mem_dedup]
  exact List.mem_map.mpr ⟨v, List.mem_range.mpr hv, rfl⟩

/-- No island is empty. -/
theorem sccList_nonempty (g : UGraph) {isl : List Nat} (h : isl ∈ sccList g) :
    isl ≠ [] := by
  unfold sccList at h
  obtain ⟨r, hr, rfl⟩ := List.mem_map.mp h
  rw [List.mem_dedup] at hr
  obtain ⟨v, hv, rfl⟩ := List.mem_map.mp hr
  intro hempty
  have hvmem : v ∈ (List.range g.nodes.length).filter fun i => decide (rep g i = rep g v) := by
    rw [List.mem_filter]
    exact ⟨hv, by simp⟩
  rw [hempty] at hvmem
  cases hvmem

/-! ### Inversion of the top-level pipeline -/

theorem connect_inv {S : GenStream} {clusters : List (List V3 × V3)} {maxNC : Nat}
    {g : UGraph} (h : connect_clusters_internally S clusters maxNC = some g) :
    ∃ gs, clusterGraphs S maxNC 0 clusters = some gs ∧
      g = merge_undirected_graphs UGraph.empty gs := by
  unfold connect_clusters_internally at h
  cases hg : clusterGraphs S maxNC 0 clusters with
  | none => rw [hg] at h; simp [Option.map] at h
  | some gs =>
    rw [hg] at h
    simp only [Option.map, Option.some.injEq] at h
    exact ⟨gs, rfl, h.symm⟩

theorem new_inv {S : GenStream} {T : Trig} {n : Nat} {radius : Q} {maxNC fuel : Nat}
    {cg : ConstellationGraph}
    (h : ConstellationGraph.new S T n radius maxNC fuel = some cg) :
    ∃ points clusters g,
      generate_points S T n radius fuel = some points ∧
      cluster_voronoi S points ((n + 14) / 15) = some clusters ∧
      connect_clusters_internally S clusters maxNC = some g ∧
      cg = ⟨chordList.getD (S.chordPick % chordList.length) .Cmaj,
            (S.semitonePick % 23 : Int) - 11, g, sccList g⟩ := by
  unfold ConstellationGraph.new at h
  cases hp : generate_points S T n radius fuel with
  | none => rw [hp] at h; cases h
  | some points =>
    rw [hp] at h
    simp only at h
    cases hc : cluster_voronoi S points ((n + 14) / 15) with
    | none => rw [hc] at h; cases h
    | some clusters =>
      rw [hc] at h
      simp only at h
      cases hg : connect_clusters_internally S clusters maxNC with
      | none => rw [hg] at h; cases h
      | some g =>
        rw [hg] at h
        rw [Option.some.injEq] at h
        exact ⟨points, clusters, g, rfl, hc, hg, h.symm⟩

/-- Successful point generation yields `n` points for `n ≥ 1` (and one
point for `n = 0`: the unconditional start point). -/
theorem generate_points_length {S : GenStream} {T : Trig} {n : Nat} {radius : Q}
    {fuel : Nat} {pts : List V3}
    (h : generate_points S T n radius fuel = some pts) :
    pts.length = 1 + (n - 1) := by
  unfold generate_points generate_points_poisson at h
  cases hp : poissonGo S T radius (n - 1) 1 [startPoint radius] (T.tau * qdiv 2 100) 0 fuel with
  | none => rw [hp] at h; simp [Option.map] at h
  | some tr =>
    rw [hp] at h
    simp only [Option.map, Option.some.injEq] at h
    subst h
    have := poissonGo_length S T radius (n-1) 1 [startPoint radius] (T.tau * qdiv 2 100) 0 fuel tr hp
    simp [this]
    omega

/-! ### Claim theorems -/

/-- C1: for every fixed input `(n, radius, max_neighbor_count, seed)` —
here: the same draw streams, trig interpretation and fuel — two
independent runs of `ConstellationGraph::new` produce structurally
identical results: the same node count, the same edge set, the same
island partition, and the same chord and semitone offset.  (Generation is
a pure function of its inputs: no hash-ordering or ambient state enters
the model, mirroring the source's exclusive use of seeded rngs and
ordered containers.) -/
theorem c1_determinism (S : GenStream) (T : Trig) (n : Nat) (radius : Q)
    (maxNC fuel : Nat) (g1 g2 : ConstellationGraph)
    (h1 : ConstellationGraph.new S T n radius maxNC fuel = some g1)
    (h2 : ConstellationGraph.new S T n radius maxNC fuel = some g2) :
    g1.graph.nodes.length = g2.graph.nodes.length ∧
      g1.graph.edges = g2.graph.edges ∧
      g1.islands = g2.islands ∧
      g1.chord = g2.chord ∧
      g1.semitone_offset = g2.semitone_offset := by
  have heq : g1 = g2 := Option.some.inj (h1.symm.trans h2)
  subst heq
  exact ⟨rfl, rfl, rfl, rfl, rfl⟩

theorem c1_determinism_witness :
    cgW1.graph.nodes.length = cgW1.graph.nodes.length ∧
      cgW1.graph.edges = cgW1.graph.edges ∧
      cgW1.islands = cgW1.islands ∧
      cgW1.chord = cgW1.chord ∧
      cgW1.semitone_offset = cgW1.semitone_offset :=
  c1_determinism streamW trigW 1 1 3 5 cgW1 cgW1 (by decide) (by decide)

/-- C2 (amended: `n ≥ 1`; for `n = 0` generation does not return a graph
at all, see the counterexample): every successful generation with `n ≥ 1`
returns a graph with exactly `n` nodes, and the islands list is a total
partition of the node indices — every node index belongs to exactly one
island and no island is empty. -/
theorem c2_completeness (S : GenStream) (T : Trig) (n : Nat) (radius : Q)
    (maxNC fuel : Nat) (cg : ConstellationGraph) (hn : 1 ≤ n)
    (h : ConstellationGraph.new S T n radius maxNC fuel = some cg) :
    cg.graph.nodes.length = n ∧
      (∀ v, v < n → (cg.islands.countP fun isl => decide (v ∈ isl)) = 1) ∧
      (∀ isl ∈ cg.islands, isl ≠ []) := by
  obtain ⟨points, clusters, g, hp, hc, hg, rfl⟩ := new_inv h
  have hlen : points.length = n := by
    have := generate_points_length hp
    omega
  obtain ⟨gs, hcg, rfl⟩ := connect_inv hg
  have hsizes := cluster_voronoi_sizes hc
  obtain ⟨hnodes, _⟩ := clusterGraphs_spec hcg
  have hng : (merge_undirected_graphs UGraph.empty gs).nodes.length = n := by
    rw [merge_nodes]
    show (([] : List V3) ++ (gs.map (fun g' => g'.nodes)).flatten).length = n
    rw [List.nil_append, List.length_flatten, hnodes, List.map_map]
    show clusterSizes clusters = n
    rw [hsizes, hlen]
  refine ⟨hng, ?_, ?_⟩
  · intro v hv
    exact sccList_count_one _ (by rw [hng]; exact hv)
  · intro isl hisl
    exact sccList_nonempty _ hisl

theorem c2_completeness_witness :
    cgW1.graph.nodes.length = 1 ∧
      (∀ v, v < 1 → (cgW1.islands.countP fun isl => decide (v ∈ isl)) = 1) ∧
      (∀ isl ∈ cgW1.islands, isl ≠ []) :=
  c2_completeness streamW trigW 1 1 3 5 cgW1 (by decide) (by decide)

/-- C2, counterexample to the claim as stated (which includes `n = 0`):
at `n = 0` the sampler still emits the unconditional start point (one
point, not zero), the cluster count is zero, and generation aborts
(modelled as `none`; in the source, `clusters[closest]` panics), so no
graph with zero nodes is returned. -/
theorem c2_counterexample :
    ConstellationGraph.new streamW trigW 0 1 3 5 = none ∧
      generate_points streamW trigW 0 1 5 = some [startPoint 1] := by
  constructor
  · decide
  · decide

/-- C3 (the code contradicts the claim at `n = 0`): `generate_points`
pushes the start point before checking the loop guard, so `n = 0` yields
one point (not an empty graph), the cluster count `ceil(0/15) = 0` leaves
that point with no cluster to join, and generation aborts (modelled
`none`; a panic in the source) instead of returning an empty graph with
zero islands.  The `n = 1` half of the claim does hold: a single node, no
edges, and exactly one island `[0]`. -/
theorem c3_boundary (S : GenStream) (T : Trig) (radius : Q) (maxNC fuel : Nat)
    (hmax : 1 ≤ maxNC) :
    generate_points S T 0 radius fuel = some [startPoint radius] ∧
      ConstellationGraph.new S T 0 radius maxNC fuel = none ∧
      (ConstellationGraph.new S T 1 radius maxNC fuel).map
          (fun cg => (cg.graph, cg.islands))
        = some (⟨[startPoint radius], []⟩, [[0]]) := by
  refine ⟨rfl, rfl, ?_⟩
  have h0 : ¬ (maxNC = 0) := by omega
  simp [ConstellationGraph.new, generate_points, generate_points_poisson, poissonGo,
    cluster_voronoi, chooseMultiple, assignPoints, nearestIdx, nearestIdxAux, modifyAt,
    sortClustersByY, insertionSort, insertLe, connect_clusters_internally, clusterGraphs,
    buildClusterGraph, addEdgesFor, nearestN, merge_undirected_graphs, UGraph.empty,
    sccList, rep, reachSet, reachExpand, nbrs, Nat.mod_one, h0, Function.iterate_one,
    List.take_succ_cons, List.range_succ, List.range_zero,
    List.foldl_cons, List.foldl_nil, List.take_nil, containsEdge, addEdge,
    List.dedup_cons_of_not_mem, List.dedup_nil]

theorem c3_boundary_witness :
    generate_points streamW trigW 0 (1:Q) 5 = some [startPoint 1] ∧
      ConstellationGraph.new streamW trigW 0 (1:Q) 3 5 = none ∧
      (ConstellationGraph.new streamW trigW 1 (1:Q) 3 5).map
          (fun cg => (cg.graph, cg.islands))
        = some (⟨[startPoint 1], []⟩, [[0]]) :=
  c3_boundary streamW trigW 1 3 5 (by decide)

/-- C4: the graph returned by `ConstellationGraph::new` is simple: no edge
joins a node to itself, and no two stored edges join the same unordered
pair of nodes (per-cluster construction only adds an edge after the
`contains_edge` check, and merging translates the per-cluster edge sets
into disjoint index ranges). -/
theorem c4_simple (S : GenStream) (T : Trig) (n : Nat) (radius : Q)
    (maxNC fuel : Nat) (cg : ConstellationGraph)
    (h : ConstellationGraph.new S T n radius maxNC fuel = some cg) :
    Simple cg.graph := by
  obtain ⟨points, clusters, g, hp, hc, hg, rfl⟩ := new_inv h
  obtain ⟨gs, hcg, rfl⟩ := connect_inv hg
  obtain ⟨_, hsimple⟩ := clusterGraphs_spec hcg
  have hbase : Simple UGraph.empty := by
    constructor
    · intro e he
      simp [UGraph.empty] at he
    · exact List.Pairwise.nil
  have hbelow : EdgesBelow UGraph.empty UGraph.empty.nodes.length := by
    intro e he
    simp [UGraph.empty] at he
  exact (merge_simple gs UGraph.empty hbase hbelow hsimple).1

theorem c4_simple_witness : Simple cgW3.graph :=
  c4_simple streamW trigW 3 1 2 5 cgW3 (by decide)

/-- C5, counterexample to the claim as stated: in the per-cluster graph
built from a three-point cluster with `max_neighbor_count = 1`, the middle
node (node 0) ends up with 2 incident edges — more than
`max_neighbor_count` — because both other points chose it as their nearest
neighbour.  The bound only limits the edges a node initiates in its own
iteration, not its final degree. -/
theorem c5_counterexample :
    (connect_clusters_internally streamW [(clusterC5, v3 0 0 0)] 1).map
        (fun g => degree g 0) = some 2 := by
  decide

/-- C5 (amended): the per-iteration neighbour count is drawn in
`1..=max_neighbor_count`, but a node's final per-cluster degree may exceed
`max_neighbor_count` (see the counterexample); the second half of the
claim does hold: merging only relabels existing edges, so every node's
degree in the merged global graph equals its degree in its cluster
graph. -/
theorem c5_degree_preserved (S : GenStream) (maxNC : Nat)
    (clusters : List (List V3 × V3)) (gs : List UGraph)
    (hcg : clusterGraphs S maxNC 0 clusters = some gs)
    (c i : Nat) (hc : c < gs.length) (hi : i < (gs.get ⟨c, hc⟩).nodes.length) :
    degree (merge_undirected_graphs UGraph.empty gs) (offsetBefore gs c + i)
      = degree (gs.get ⟨c, hc⟩) i := by
  obtain ⟨_, hspec⟩ := clusterGraphs_spec hcg
  have hval : ∀ g ∈ gs, EdgesBelow g g.nodes.length := fun g hg => (hspec g hg).2
  rw [degree, ← List.countP_eq_length_filter, merge_edges]
  show (([] : List (Nat × Nat)) ++ mergeEdgesSpec gs 0).countP _ = _
  rw [List.nil_append]
  have := degree_mergeEdgesSpec gs 0 c i hval hc hi
  rw [show offsetBefore gs c + i = 0 + offsetBefore gs c + i by omega]
  exact this

theorem c5_degree_preserved_witness :
    degree (merge_undirected_graphs UGraph.empty [gC5]) (offsetBefore [gC5] 0 + 0)
      = degree ([gC5].get ⟨0, by decide⟩) 0 :=
  c5_degree_preserved streamW 1 [(clusterC5, v3 0 0 0)] [gC5] (by decide) 0 0
    (by decide) (by decide)

/-- C6: merging the per-cluster graphs (into an initially empty base, as
`connect_clusters_internally` does) yields exactly the concatenated node
lists in cluster order (weights preserved, node count the sum of the
input counts) and exactly the union of the input edge lists, each edge
translated by the node-index offset of its cluster — no edge added, none
dropped.  `mergeEdgesSpec` is the spec-side description of that edge
union. -/
theorem c6_merge_structure (gs : List UGraph) :
    (merge_undirected_graphs UGraph.empty gs).nodes
        = (gs.map (fun g => g.nodes)).flatten ∧
      (merge_undirected_graphs UGraph.empty gs).nodes.length
        = (gs.map (fun g => g.nodes.length)).sum ∧
      (merge_undirected_graphs UGraph.empty gs).edges = mergeEdgesSpec gs 0 := by
  have hn := merge_nodes gs UGraph.empty
  have he := merge_edges gs UGraph.empty
  refine ⟨?_, ?_, ?_⟩
  · rw [hn]
    rfl
  · rw [hn]
    show (([] : List V3) ++ (gs.map (fun g => g.nodes)).flatten).length = _
    rw [List.nil_append, List.length_flatten, List.map_map]
    rfl
  · rw [he]
    rfl

/-- C7: for every pair of points accepted by the sampler before any
leniency relaxation occurred (the run-wide relaxation count at the later
point's acceptance is still 0), the chord distance between them is at
least the later point's initial target minimum distance
`2·radius·sin(angle/2)·0.9` (`mdInit`; the comparison is stated on squared
distances, exactly as the source compares them, which for nonnegative
quantities is the claimed chord-distance bound).  The earlier points are
the start point and the entries before index `j`. -/
theorem c7_min_separation (S : GenStream) (T : Trig) (n : Nat) (radius ma0 : Q)
    (fuel : Nat) (tr : List TraceEntry)
    (h : poissonGo S T radius (n - 1) 1 [startPoint radius] ma0 0 fuel = some tr)
    (j : Nat) (hj : j < tr.length) (hrel : (tr.get ⟨j, hj⟩).relax = 0) :
    ∀ q ∈ startPoint radius :: (tr.take j).map (·.pt),
      mdInit S T radius (1 + j) ma0 * mdInit S T radius (1 + j) ma0
        ≤ dist2 q (tr.get ⟨j, hj⟩).pt := by
  have hacc := poissonGo_accepts S T radius (n-1) 1 [startPoint radius] ma0 0 fuel tr h j hj
  have hnr := poissonGo_no_relax S T radius (n-1) 1 [startPoint radius] ma0 0 fuel tr h j hj hrel
  intro q hq
  have hmem : q ∈ [startPoint radius] ++ (tr.take j).map (·.pt) := hq
  have hlt := (accepts_iff _ _ _).mp hacc q hmem
  rw [hnr.1] at hlt
  exact Q.le_of_lt hlt

theorem c7_min_separation_witness :
    mdInit streamW trigW 1 (1 + 0) 1 * mdInit streamW trigW 1 (1 + 0) 1
      ≤ dist2 (startPoint 1) (trW.get ⟨0, by decide⟩).pt :=
  c7_min_separation streamW trigW 3 1 1 5 trW (by decide) 0 (by decide) (by decide)
    (startPoint 1) (List.Mem.head _)

/-- C8, counterexample to the claim as stated: the working minimum
distance is not monotonically non-increasing throughout a run.  It is
recomputed for every point from a fresh random angle draw in
`[0.5, 1.5] × max_angle`; in this run (low draw for point 1, high draw
for point 2, no relaxation) it increases from 18/40 to 54/40 between
consecutive points. -/
theorem c8_counterexample :
    (poissonGo streamC8 trigW 1 2 1 [startPoint 1] 1 0 3).map
        (fun tr => decide ((tr.getD 0 trDummy).md < (tr.getD 1 trDummy).md))
      = some true := by
  decide

/-- C8 (amended): `max_angle` is monotonically non-increasing throughout
the run — each relaxation multiplies it by the fixed decay factor 0.9 and
the reduced value persists for all subsequently sampled points — and the
working minimum distance is non-increasing within a single point's
search: the distance actually enforced at acceptance is at most that
point's initial target `2·radius·sin(angle/2)·0.9`.  But the working
minimum distance is recomputed per point from a fresh angle draw and may
increase from one point to the next (see the counterexample). -/
theorem c8_monotonicity (S : GenStream) (T : Trig) (n : Nat) (radius ma0 : Q)
    (fuel : Nat) (tr : List TraceEntry)
    (h : poissonGo S T radius (n - 1) 1 [startPoint radius] ma0 0 fuel = some tr)
    (hma : 0 ≤ ma0) (hsin : ∀ x, 0 ≤ T.sinq x) (hrad : 0 ≤ radius) :
    (∀ j j' (hj : j < tr.length) (hj' : j' < tr.length), j ≤ j' →
        (tr.get ⟨j', hj'⟩).maStart ≤ (tr.get ⟨j, hj⟩).maStart) ∧
      (∀ j (hj : j < tr.length), (tr.get ⟨j, hj⟩).maStart ≤ ma0) ∧
      (∀ j (hj : j < tr.length),
        (tr.get ⟨j, hj⟩).md
          ≤ 2 * radius * T.sinq ((tr.get ⟨j, hj⟩).angle * qdiv 1 2) * qdiv 9 10) := by
  refine ⟨?_, ?_, ?_⟩
  · exact poissonGo_maStart_mono S T radius (n-1) 1 [startPoint radius] ma0 0 fuel tr h hma
  · intro j hj
    exact (poissonGo_maStart_le S T radius (n-1) 1 [startPoint radius] ma0 0 fuel tr h hma j hj).1
  · exact poissonGo_md_le S T radius hsin hrad (n-1) 1 [startPoint radius] ma0 0 fuel tr h

theorem c8_monotonicity_witness :
    (∀ j j' (hj : j < trW.length) (hj' : j' < trW.length), j ≤ j' →
        (trW.get ⟨j', hj'⟩).maStart ≤ (trW.get ⟨j, hj⟩).maStart) ∧
      (∀ j (hj : j < trW.length), (trW.get ⟨j, hj⟩).maStart ≤ 1) ∧
      (∀ j (hj : j < trW.length),
        (trW.get ⟨j, hj⟩).md
          ≤ 2 * 1 * trigPos.sinq ((trW.get ⟨j, hj⟩).angle * qdiv 1 2) * qdiv 9 10) :=
  c8_monotonicity streamW trigPos 3 1 1 5 trW (by decide) (by decide)
    (fun _ => (by decide : (0:Q) ≤ qdiv 1 2)) (by decide)

/-- Helper for the C9 counterexample: with the all-zero stream and a
rotation that fixes the parent, every candidate coincides with the start
point and is rejected forever, whatever the attempt budget. -/
theorem generate_points_stuck :
    ∀ fuel : Nat, generate_points streamZero trigId 2 1 fuel = none := by
  have hsearch : ∀ (angle : Q) (fuel' : Nat) (st : LoopState) (t : Nat),
      search streamZero trigId 1 [startPoint 1] angle st t fuel' = none := by
    intro angle fuel'
    induction fuel' with
    | zero => intro st t; rfl
    | succ f ih =>
      intro st t
      rw [search_succ]
      have hnot : ¬ ((relaxStep st).md * (relaxStep st).md
          < dist2 (startPoint 1) (candidateAt streamZero trigId 1 [startPoint 1] angle t)) := by
        have hc : candidateAt streamZero trigId 1 [startPoint 1] angle t = startPoint 1 := rfl
        rw [hc]
        exact Q.not_lt (Q.sq_nonneg _)
      have hacc : accepts [startPoint 1] (relaxStep st).md
          (candidateAt streamZero trigId 1 [startPoint 1] angle t) = false := by
        simp only [accepts, List.all_cons, List.all_nil, Bool.and_true]
        exact decide_eq_false hnot
      rw [hacc]
      simp only [Bool.false_eq_true, if_false]
      exact ih _ (t+1)
  intro fuel
  unfold generate_points generate_points_poisson
  have hpg : poissonGo streamZero trigId 1 (2 - 1) 1 [startPoint 1]
      (trigId.tau * qdiv 2 100) 0 fuel = none := by
    simp only [poissonGo]
    rw [hsearch]
  rw [hpg]
  rfl

/-- C9, counterexample to the claim as stated: generation does not
terminate for every `n`, positive radius and deterministic random stream.
Concrete refuting input: `n = 2`, `radius = 1`, the all-zero draw stream
`streamZero` with the degenerate trig `trigId` whose rotation fixes the
parent point (the rotation axis drawn parallel to the parent's position —
a possible output of `random_unit_axis`): every candidate coincides with
the start point, is rejected at every positive minimum distance, and the
search never accepts, for any number of attempts. -/
theorem c9_counterexample :
    ∃ (S : GenStream) (T : Trig) (n : Nat) (radius : Q),
      0 < radius ∧ ∀ fuel : Nat, generate_points S T n radius fuel = none :=
  ⟨streamZero, trigId, 2, 1, by decide, generate_points_stuck⟩

/-- C9 (amended): exceeding the per-point iteration budget of 1000 only
relaxes the state (`relaxStep`, applied inside the rejected-state
iterator `stateAt`) and the search continues — there is no error path.
The search succeeds within a given number of attempts exactly when some
attempt proposes a candidate passing the acceptance test at the
then-current (possibly relaxed) minimum distance; so generation
terminates for every stream that eventually proposes such a candidate,
but (see the counterexample) not for literally every stream. -/
theorem c9_search_succeeds_iff (S : GenStream) (T : Trig) (i : Nat) (pts : List V3)
    (angle : Q) (st : LoopState) (t fuel : Nat) :
    (∃ r, search S T i pts angle st t fuel = some r) ↔
      ∃ s, s < fuel ∧
        accepts pts (relaxStep (stateAt st s)).md
          (candidateAt S T i pts angle (t + s)) = true := by
  rw [← Option.ne_none_iff_exists']
  rw [ne_eq, search_none_iff]
  push_neg
  constructor
  · rintro ⟨s, hs, hne⟩
    exact ⟨s, hs, by simpa using hne⟩
  · rintro ⟨s, hs, heq⟩
    exact ⟨s, hs, by simp [heq]⟩

/-- C10: `PartialEq` on `ConstellationGraph` compares only the graph (raw
node and edge storage, in order) and the islands list; two values with
identical graph and islands but different chord or semitone offset still
compare equal. -/
theorem c10_partial_eq (a b : ConstellationGraph)
    (hg : a.graph = b.graph) (hi : a.islands = b.islands)
    (hdiff : a.chord ≠ b.chord ∨ a.semitone_offset ≠ b.semitone_offset) :
    constellationEq a b = true := by
  unfold constellationEq graph_eq
  rw [hg, hi]
  simp

theorem c10_partial_eq_witness : constellationEq cgW1 cgW1' = true :=
  c10_partial_eq cgW1 cgW1' rfl rfl (Or.inl (by decide))
